import Mathlib

/-!
Verification development for the `server-compile` tool
(`src/server-compile.py`).  The program pushes a LaTeX project folder to a
remote host, builds it there, pulls the results back and repairs the
`*.synctex.gz` debug-mapping file.

Strings are modelled as `List Char`; file contents are the decoded text of
the (gzip-wrapped) mapping file.  Each Python library function used by the
program (`str.replace`, `os.path.normpath`, `os.path.split`,
`os.path.splitext`, `os.path.join`) is embedded faithfully from its CPython
(posixpath) semantics, and `sanitize_synctex`, `Filepath_info` and the
driver `main` are embedded on top of them.
-/

/-- The fixed remote staging root, `SERVER_TARGET_DIR = '/tmp'` in the
source. -/
def SERVER_TARGET_DIR : List Char := ['/', 't', 'm', 'p']

/-- Worker for `strReplace`.  The first argument counts characters still to
be skipped because they were consumed by a match; scanning is
left-to-right, matches are non-overlapping, exactly as CPython
`str.replace`.  (For an empty needle CPython inserts `new` between all
characters; this embedding leaves the string unchanged instead.  The
program only ever replaces the nonempty needle `SERVER_TARGET_DIR`.) -/
def strReplaceAux (old new : List Char) : Nat → List Char → List Char
  | _, [] => []
  | 0, c :: cs =>
    if old ≠ [] ∧ old.isPrefixOf (c :: cs) then
      new ++ strReplaceAux old new (old.length - 1) cs
    else
      c :: strReplaceAux old new 0 cs
  | k + 1, _ :: cs => strReplaceAux old new k cs

/-- `s.replace(old, new)` from line 66 of the source. -/
def strReplace (s old new : List Char) : List Char :=
  strReplaceAux old new 0 s

/-- Split a text into its lines, keeping the terminating newline of each
line, the way iterating over a Python text file yields lines (a final line
without a newline is kept, an empty text yields no lines). -/
def splitLinesKeep : List Char → List (List Char)
  | [] => []
  | c :: rest =>
    if c = '\n' then ['\n'] :: splitLinesKeep rest
    else
      match splitLinesKeep rest with
      | [] => [[c]]
      | l :: ls => (c :: l) :: ls

/-- `path.split('/')` used by CPython `posixpath.normpath`. -/
def splitOnSlash : List Char → List (List Char)
  | [] => [[]]
  | c :: rest =>
    if c = '/' then [] :: splitOnSlash rest
    else
      match splitOnSlash rest with
      | [] => [[c]]
      | l :: ls => (c :: l) :: ls

/-- Apply `f` to the last element of a list of components (used to state
how `splitOnSlash` reacts to appending one character). -/
def modifyLastComp (f : List Char → List Char) : List (List Char) → List (List Char)
  | [] => []
  | [l] => [f l]
  | l :: rest => l :: modifyLastComp f rest

/-- The number of initial slashes CPython `posixpath.normpath` preserves:
0 for a relative path, 2 for a path starting with exactly two slashes
(POSIX allows those a special meaning), 1 otherwise. -/
def initialSlashCount (path : List Char) : Nat :=
  if path.head? = some '/' then
    if ['/', '/'].isPrefixOf path ∧ ¬ ['/', '/', '/'].isPrefixOf path then 2 else 1
  else 0

/-- One step of the component loop of CPython `posixpath.normpath`:
drop empty and `.` components, append everything else, except that a `..`
pops the previous component unless there is nothing to pop (at the root it
is dropped; at the front of a relative path it is kept). -/
def normStep (k : Nat) (acc : List (List Char)) (comp : List Char) : List (List Char) :=
  if comp = [] ∨ comp = ['.'] then acc
  else if comp ≠ ['.', '.'] ∨ (k = 0 ∧ acc = []) ∨ acc.getLast? = some ['.', '.'] then
    acc ++ [comp]
  else acc.dropLast

/-- The component loop of CPython `posixpath.normpath`. -/
def normComps (k : Nat) (comps : List (List Char)) : List (List Char) :=
  comps.foldl (normStep k) []

/-- CPython `posixpath.normpath`, called `os.path.normpath` on line 66 of
the source: purely lexical normalization of a path string. -/
def normpath (path : List Char) : List Char :=
  if path = [] then ['.']
  else
    let k := initialSlashCount path
    let nc := normComps k (splitOnSlash path)
    let res := List.replicate k '/' ++ List.intercalate ['/'] nc
    if res = [] then ['.'] else res

/-- `sanitize_synctex` (lines 61-73 of the source) as a transformation of
the decoded text of the mapping file: read the lines, replace every
occurrence of `target_directory` by `current_directory` in each line,
normalize the result as a path, and write the rewritten lines back with no
added separators (each kept newline travels inside its line). -/
def sanitize_synctex (content current_directory target_directory : List Char) : List Char :=
  ((splitLinesKeep content).map
    (fun line => normpath (strReplace line target_directory current_directory))).flatten

/-- Strip trailing slashes, `head.rstrip('/')` in CPython
`posixpath.split`. -/
def rstripSlashes (l : List Char) : List Char :=
  (l.reverse.dropWhile (fun c => c == '/')).reverse

/-- Cut a path at its last slash: everything up to and including the last
slash, and everything after it.  A path with no slash has an empty first
part.  This is the `p[:i], p[i:]` with `i = p.rfind('/') + 1` of CPython
`posixpath.split`. -/
def osSplitRaw (p : List Char) : List Char × List Char :=
  p.foldr
    (fun c ht => if c = '/' ∨ ht.1 ≠ [] then (c :: ht.1, ht.2) else (ht.1, c :: ht.2))
    ([], [])

/-- CPython `posixpath.split`, called `os.path.split` on lines 91 and 93 of
the source: the head keeps its trailing slash only when it consists of
slashes alone. -/
def osSplit (p : List Char) : List Char × List Char :=
  let hr := (osSplitRaw p).1
  (if hr ≠ [] ∧ hr.any (fun c => !(c == '/')) then rstripSlashes hr else hr,
   (osSplitRaw p).2)

/-- CPython `posixpath.join` for two arguments, used on lines 128 and 154
of the source and as the model of CWD-relative resolution. -/
def osJoin (a b : List Char) : List Char :=
  if b.head? = some '/' then b
  else if a = [] ∨ a.getLast? = some '/' then a ++ b
  else a ++ '/' :: b

/-- Index of the last occurrence of `c` in `p`, as an `Int` with `-1` for
"not found", matching `p.rfind(c)` in CPython. -/
def rfindChar (p : List Char) (c : Char) : Int :=
  match p.reverse.findIdx? (fun x => x == c) with
  | none => -1
  | some j => (p.length : Int) - 1 - (j : Int)

/-- CPython `posixpath.splitext` (via `genericpath._splitext`), called
`os.path.splitext` on line 92 of the source: split off the extension at the
last dot, unless every character between the last slash and that dot is
itself a dot (so `.bashrc` has no extension). -/
def splitext (p : List Char) : List Char × List Char :=
  let sepIndex := rfindChar p '/'
  let dotIndex := rfindChar p '.'
  if sepIndex < dotIndex then
    let f := (sepIndex + 1).toNat
    let d := dotIndex.toNat
    if ((p.drop f).take (d - f)).all (fun ch => ch == '.') then (p, [])
    else (p.take d, p.drop d)
  else (p, [])

/-- The path-decomposition record built by `Filepath_info.__init__`
(lines 89-93 of the source). -/
structure Filepath_info where
  folder : List Char
  filename : List Char
  stem : List Char
  extension : List Char
  bottom_folders : List Char
  top_folder : List Char

/-- `Filepath_info.__init__`: `folder, filename = os.path.split(path)`;
`stem, extension = os.path.splitext(filename)`;
`bottom_folders, top_folder = os.path.split(folder)`. -/
def Filepath_info.ofPath (path : List Char) : Filepath_info :=
  { folder := (osSplit path).1
    filename := (osSplit path).2
    stem := (splitext (osSplit path).2).1
    extension := (splitext (osSplit path).2).2
    bottom_folders := (osSplit (osSplit path).1).1
    top_folder := (osSplit (osSplit path).1).2 }

/-- The relative file name `fp.stem + ".synctex.gz"` the driver hands to
`sanitize_synctex` (line 157 of the source). -/
def synctexGzArg (fp : Filepath_info) : List Char :=
  fp.stem ++ ".synctex.gz".toList

/-- Modelled from the spec: the operating system resolves a relative
pathname (such as the file name `sanitize_synctex` opens) against the
process's current working directory by joining the two; the source itself
contains no resolution code, it simply opens the relative name. -/
def resolveAgainstCwd (cwd rel : List Char) : List Char :=
  osJoin cwd rel

/-- The externally observable phases of a run of `main`, in the order the
driver issues them. -/
inductive ExtAction
  | syncForward
  | runLatexmk
  | syncBack
  | sanitizeSynctex
  deriving DecidableEq

/-- How the process ends: a normal `sys.exit`-style termination with a
code, or an uncaught `AssertionError` from one of the rsync wrappers. -/
inductive Outcome
  | exited (code : Nat)
  | assertionError
  deriving DecidableEq

/-- The control flow of `main` (lines 95-161 of the source) as a function
of the exit statuses reported by the three external commands: the forward
rsync asserts a zero status (line 40), a nonzero latexmk status prints and
calls `sys.exit(1)` (lines 147-150), the back rsync asserts a zero status
(line 53), and otherwise the run sanitizes the synctex file and ends
normally (exit code 0). -/
def mainRun (forward_rc latexmk_rc back_rc : Int) : List ExtAction × Outcome :=
  if forward_rc ≠ 0 then ([.syncForward], .assertionError)
  else if latexmk_rc ≠ 0 then ([.syncForward, .runLatexmk], .exited 1)
  else if back_rc ≠ 0 then
    ([.syncForward, .runLatexmk, .syncBack], .assertionError)
  else ([.syncForward, .runLatexmk, .syncBack, .sanitizeSynctex], .exited 0)

/-- Parse a glob character class: the characters up to the closing `]`,
and the remainder of the pattern. -/
def splitClass : List Char → Option (List Char × List Char)
  | [] => none
  | c :: rest =>
    if c = ']' then some ([], rest)
    else (splitClass rest).map (fun p => (c :: p.1, p.2))

/-- Modelled from the spec: the external sync tool matches its exclusion
patterns as shell-style globs against entry names — `*` matches any
sequence, `?` any one character, `[...]` a character set (`[!...]`
negated), and every other character, including `(`, `|` and `)`, matches
only itself.  The repository contains no matching code; it only passes the
pattern strings to the tool.  Fuel-driven so that it evaluates by
`decide`; the fuel in `globMatch` always suffices. -/
def globMatchAux (fuel : Nat) : List Char → List Char → Bool :=
  match fuel with
  | 0 => fun _ _ => false
  | fuel + 1 => fun pat s =>
    match pat, s with
    | [], [] => true
    | [], _ :: _ => false
    | '*' :: ps, [] => globMatchAux fuel ps []
    | '*' :: ps, c :: s' =>
      globMatchAux fuel ps (c :: s') || globMatchAux fuel ('*' :: ps) s'
    | '?' :: ps, _ :: s' => globMatchAux fuel ps s'
    | '[' :: ps, c :: s' =>
      match splitClass ps with
      | some (cls, rest) =>
        match cls with
        | '!' :: cls' => !(cls'.contains c) && globMatchAux fuel rest s'
        | _ => cls.contains c && globMatchAux fuel rest s'
      | none => ('[' == c) && globMatchAux fuel ps s'
    | p :: ps, c :: s' => (p == c) && globMatchAux fuel ps s'
    | _ :: _, [] => false

/-- Whole-name glob match of a pattern against an entry name. -/
def globMatch (pat s : List Char) : Bool :=
  globMatchAux (pat.length + s.length + 1) pat s

/-- The exclusion pattern of the forward rsync, line 37 of the source. -/
def FORWARD_EXCLUDE_PATTERN : List Char := ".[!.]*".toList

/-- The exclusion pattern of the back rsync, line 50 of the source. -/
def BACK_EXCLUDE_PATTERN : List Char := "(.[!.]*|*.tex)".toList

/-- C3: on a nonzero exit status from the remote build invocation the
driver performs no back-transfer and no synctex repair and exits with code
1; on a zero status it proceeds to the back-transfer, and (when that
transfer succeeds) to the repair, ending with exit code 0. -/
theorem c3_build_failure_skips_sync_back (l b : Int) :
    (l ≠ 0 →
      (mainRun 0 l b).1 = [ExtAction.syncForward, ExtAction.runLatexmk] ∧
      ExtAction.syncBack ∉ (mainRun 0 l b).1 ∧
      ExtAction.sanitizeSynctex ∉ (mainRun 0 l b).1 ∧
      (mainRun 0 l b).2 = Outcome.exited 1) ∧
    (l = 0 →
      ExtAction.syncBack ∈ (mainRun 0 l b).1 ∧
      (b = 0 →
        ExtAction.sanitizeSynctex ∈ (mainRun 0 l b).1 ∧
        (mainRun 0 l b).2 = Outcome.exited 0)) := by
  constructor
  · intro hl
    simp [mainRun, hl]
  · intro hl
    subst hl
    by_cases hb : b = 0
    · subst hb
      simp [mainRun]
    · simp [mainRun, hb]

/-- C3 witness: with build status 1 the run exits with code 1; with build
status 0 the back-transfer happens. -/
theorem c3_build_failure_skips_sync_back_witness :
    (mainRun 0 1 0).2 = Outcome.exited 1 ∧
    ExtAction.syncBack ∈ (mainRun 0 0 0).1 :=
  ⟨((c3_build_failure_skips_sync_back 1 0).1 (by decide)).2.2.2,
   ((c3_build_failure_skips_sync_back 0 0).2 rfl).1⟩

/-- C8: a nonzero forward-sync status aborts the run with an uncaught
assertion failure before the remote build is invoked, and neither the
back-transfer nor the repair happens. -/
theorem c8_forward_failure_fatal (f l b : Int) (hf : f ≠ 0) :
    (mainRun f l b).1 = [ExtAction.syncForward] ∧
    ExtAction.runLatexmk ∉ (mainRun f l b).1 ∧
    ExtAction.syncBack ∉ (mainRun f l b).1 ∧
    ExtAction.sanitizeSynctex ∉ (mainRun f l b).1 ∧
    (mainRun f l b).2 = Outcome.assertionError := by
  simp [mainRun, hf]

/-- C8 witness: forward-sync status 1. -/
theorem c8_forward_failure_fatal_witness :
    (mainRun 1 0 0).1 = [ExtAction.syncForward] ∧
    ExtAction.runLatexmk ∉ (mainRun 1 0 0).1 ∧
    ExtAction.syncBack ∉ (mainRun 1 0 0).1 ∧
    ExtAction.sanitizeSynctex ∉ (mainRun 1 0 0).1 ∧
    (mainRun 1 0 0).2 = Outcome.assertionError :=
  c8_forward_failure_fatal 1 0 0 (by decide)

/-- C7 is a code bug: the back-transfer's single exclusion pattern
`(.[!.]*|*.tex)` is matched literally by the sync tool's glob rules, so it
excludes neither a hidden entry such as `.hidden` nor a source file such as
`notes.tex` — while the forward pattern `.[!.]*` does exclude `.hidden`.
The source's own comment (lines 43-47) promises the back sync runs "minus
hidden subfolders", and the spec's contract additionally promises the
`*.tex` exclusion; the pattern as written delivers neither. -/
theorem c7_back_exclude_pattern_excludes_neither :
    globMatch BACK_EXCLUDE_PATTERN ".hidden".toList = false ∧
    globMatch BACK_EXCLUDE_PATTERN "notes.tex".toList = false ∧
    globMatch FORWARD_EXCLUDE_PATTERN ".hidden".toList = true ∧
    globMatch FORWARD_EXCLUDE_PATTERN "notes.tex".toList = false := by
  decide

/-- C2 counterexample: for the absolute path `/a//b` (whose containing
folder `/a` is nonempty) rejoining folder and filename yields `/a/b`, not
the original path, so the decomposition invariant claimed for every
absolute path fails. -/
theorem c2_counterexample :
    ("/a//b".toList).head? = some '/' ∧
    (Filepath_info.ofPath "/a//b".toList).folder ≠ [] ∧
    ¬ ((Filepath_info.ofPath "/a//b".toList).folder =
        osJoin (Filepath_info.ofPath "/a//b".toList).bottom_folders
          (Filepath_info.ofPath "/a//b".toList).top_folder ∧
       (Filepath_info.ofPath "/a//b".toList).filename =
        (Filepath_info.ofPath "/a//b".toList).stem ++
          (Filepath_info.ofPath "/a//b".toList).extension ∧
       osJoin (Filepath_info.ofPath "/a//b".toList).folder
          (Filepath_info.ofPath "/a//b".toList).filename = "/a//b".toList) := by
  decide

theorem getLastq_mem {α : Type*} : ∀ {l : List α} {x : α}, l.getLast? = some x → x ∈ l
  | [], _, h => by simp at h
  | [a], _, h => by simp_all
  | a :: b :: t, x, h => by
    rw [List.getLast?_cons_cons] at h
    exact List.mem_cons_of_mem a (getLastq_mem h)

/-- A prefix of `a ++ b` is a prefix of `a`, or extends `a` by some nonempty
prefix of `b`. -/
theorem pre_split {α : Type*} : ∀ (a : List α) {b t : List α}, t <+: a ++ b →
    t <+: a ∨ ∃ t₂, t = a ++ t₂ ∧ t₂ ≠ [] ∧ t₂ <+: b
  | [], b, t, h => by
    cases t with
    | nil => exact Or.inl List.nil_prefix
    | cons d t' => exact Or.inr ⟨d :: t', rfl, by simp, h⟩
  | c :: a', b, t, h => by
    cases t with
    | nil => exact Or.inl List.nil_prefix
    | cons d t' =>
      rw [List.cons_append] at h
      obtain ⟨rfl, h'⟩ := List.cons_prefix_cons.mp h
      rcases pre_split a' h' with h2 | ⟨t₂, rfl, hne, hb⟩
      · exact Or.inl (List.cons_prefix_cons.mpr ⟨rfl, h2⟩)
      · exact Or.inr ⟨t₂, rfl, hne, hb⟩

/-- An infix of `a ++ b` lies in `a`, lies in `b`, or splits into a
nonempty suffix of `a` followed by a nonempty prefix of `b`. -/
theorem inf_split {α : Type*} : ∀ (a : List α) {b t : List α}, t <:+: a ++ b →
    t <:+: a ∨ t <:+: b ∨
      ∃ t₁ t₂, t = t₁ ++ t₂ ∧ t₁ ≠ [] ∧ t₂ ≠ [] ∧ t₁ <:+ a ∧ t₂ <+: b
  | [], b, t, h => Or.inr (Or.inl (by simpa using h))
  | c :: a', b, t, h => by
    rw [List.cons_append] at h
    rcases List.infix_cons_iff.mp h with hp | hi
    · rcases pre_split (c :: a') hp with h2 | ⟨t₂, rfl, hne, hb⟩
      · exact Or.inl h2.isInfix
      · exact Or.inr (Or.inr ⟨c :: a', t₂, rfl, by simp, hne, List.suffix_refl _, hb⟩)
    · rcases inf_split a' hi with h2 | h2 | ⟨t₁, t₂, rfl, hn1, hn2, h3, h4⟩
      · exact Or.inl (List.infix_cons h2)
      · exact Or.inr (Or.inl h2)
      · exact Or.inr (Or.inr ⟨t₁, t₂, rfl, hn1, hn2, h3.trans (List.suffix_cons c a'), h4⟩)

theorem suffix_getLastq {α : Type*} {t l : List α} (h : t <:+ l) (hne : t ≠ []) :
    l.getLast? = t.getLast? := by
  obtain ⟨u, rfl⟩ := h
  exact List.getLast?_append_of_ne_nil u hne

theorem pre_of_append_le {α : Type*} {t a b : List α} (h : t <+: a ++ b)
    (hl : t.length ≤ a.length) : t <+: a := by
  rcases pre_split a h with h2 | ⟨t₂, rfl, hne, _⟩
  · exact h2
  · exfalso
    have := List.length_append a t₂
    have h0 : 0 < t₂.length := List.length_pos.mpr hne
    omega

theorem strReplaceAux_skip (old new : List Char) :
    ∀ (k : Nat) (s : List Char), strReplaceAux old new k s = strReplaceAux old new 0 (s.drop k)
  | 0, s => by rw [List.drop_zero]
  | k + 1, [] => by simp [strReplaceAux]
  | k + 1, c :: cs => by
    rw [List.drop_succ_cons, ← strReplaceAux_skip old new k cs]
    rfl

theorem strReplace_cons_match {old : List Char} (new : List Char) {c : Char} {cs : List Char}
    (hne : old ≠ []) (hp : old.isPrefixOf (c :: cs)) :
    strReplace (c :: cs) old new = new ++ strReplace ((c :: cs).drop old.length) old new := by
  have hcond : old ≠ [] ∧ old.isPrefixOf (c :: cs) := ⟨hne, hp⟩
  show strReplaceAux old new 0 (c :: cs) = _
  rw [strReplaceAux, if_pos hcond, strReplaceAux_skip]
  cases old with
  | nil => exact absurd rfl hne
  | cons o os => simp [strReplace, List.drop_succ_cons]

theorem strReplace_cons_copy {old : List Char} (new : List Char) {c : Char} {cs : List Char}
    (h : ¬ (old ≠ [] ∧ old.isPrefixOf (c :: cs))) :
    strReplace (c :: cs) old new = c :: strReplace cs old new := by
  show strReplaceAux old new 0 (c :: cs) = _
  rw [strReplaceAux, if_neg h]
  rfl

theorem strReplace_of_not_occ {old new : List Char} : ∀ {s : List Char},
    ¬ old <:+: s → strReplace s old new = s
  | [], _ => rfl
  | c :: cs, h => by
    have hp : ¬ old.isPrefixOf (c :: cs) := fun hp =>
      h (List.isPrefixOf_iff_prefix.mp hp).isInfix
    rw [strReplace_cons_copy new (fun hc => hp hc.2),
      strReplace_of_not_occ (fun hi => h (List.infix_cons hi))]

theorem strReplace_mem {old new : List Char} : ∀ (s : List Char), ∀ x ∈ strReplace s old new,
    x ∈ s ∨ x ∈ new
  | [] => by intro x hx; simp [strReplace, strReplaceAux] at hx
  | c :: cs => by
    intro x hx
    by_cases hcond : old ≠ [] ∧ old.isPrefixOf (c :: cs)
    · rw [strReplace_cons_match new hcond.1 hcond.2] at hx
      rcases List.mem_append.mp hx with h | h
      · exact Or.inr h
      · rcases strReplace_mem ((c :: cs).drop old.length) x h with h2 | h2
        · exact Or.inl (List.mem_of_mem_drop h2)
        · exact Or.inr h2
    · rw [strReplace_cons_copy new hcond] at hx
      rcases List.mem_cons.mp hx with rfl | h
      · exact Or.inl (List.mem_cons_self x cs)
      · rcases strReplace_mem cs x h with h2 | h2
        · exact Or.inl (List.mem_cons_of_mem c h2)
        · exact Or.inr h2
termination_by s => s.length
decreasing_by
  · have h1 : 0 < old.length := List.length_pos.mpr hcond.1
    simp only [List.length_drop, List.length_cons]
    omega
  · simp only [List.length_cons]
    omega

/-- A needle with no newline that is a prefix of `Y ++ "\n"` is a prefix of
`Y`. -/
theorem pre_drop_nl {old : List Char} (hnl : ('\n' : Char) ∉ old) (Y : List Char)
    (h : old <+: Y ++ ['\n']) : old <+: Y := by
  rcases pre_split Y h with h2 | ⟨t₂, heq, hne, hb⟩
  · exact h2
  · exfalso
    have ht : t₂ = ['\n'] := by
      cases t₂ with
      | nil => exact absurd rfl hne
      | cons d ts =>
        obtain ⟨rfl, hts⟩ := List.cons_prefix_cons.mp hb
        rw [List.prefix_nil.mp hts]
    apply hnl
    rw [heq, ht]
    exact List.mem_append_right Y (List.mem_cons_self '\n' [])

/-- If the needle contains no newline, replacement commutes with a final
newline. -/
theorem strReplace_append_nl {old new : List Char} (hnl : ('\n' : Char) ∉ old) :
    ∀ (X : List Char),
      strReplace (X ++ ['\n']) old new = strReplace X old new ++ ['\n']
  | [] => by
    have hcond : ¬ (old ≠ [] ∧ old.isPrefixOf (['\n'] : List Char)) := by
      rintro ⟨hne, hp⟩
      have h0 := pre_drop_nl hnl [] (List.isPrefixOf_iff_prefix.mp hp)
      exact hne (List.prefix_nil.mp h0)
    rw [List.nil_append, strReplace_cons_copy new hcond]
    rfl
  | c :: X' => by
    rw [List.cons_append]
    by_cases hcond : old ≠ [] ∧ old.isPrefixOf (c :: X')
    · have hpre : old <+: c :: X' := List.isPrefixOf_iff_prefix.mp hcond.2
      have hp2 : old.isPrefixOf (c :: (X' ++ ['\n'])) := by
        rw [List.isPrefixOf_iff_prefix, ← List.cons_append]
        exact hpre.trans (List.prefix_append (c :: X') ['\n'])
      have hlen : old.length ≤ (c :: X').length := hpre.length_le
      rw [strReplace_cons_match new hcond.1 hp2,
        strReplace_cons_match new hcond.1 hcond.2,
        ← List.cons_append, List.drop_append_of_le_length hlen,
        strReplace_append_nl hnl ((c :: X').drop old.length), List.append_assoc]
    · have hcond2 : ¬ (old ≠ [] ∧ old.isPrefixOf (c :: (X' ++ ['\n']))) := by
        rintro ⟨hne, hp⟩
        exact hcond ⟨hne, List.isPrefixOf_iff_prefix.mpr
          (pre_drop_nl hnl (c :: X') (List.isPrefixOf_iff_prefix.mp hp))⟩
      rw [strReplace_cons_copy new hcond2, strReplace_cons_copy new hcond,
        strReplace_append_nl hnl X', List.cons_append]
termination_by X => X.length
decreasing_by
  · have h1 : 0 < old.length := List.length_pos.mpr hcond.1
    simp only [List.length_drop, List.length_cons]
    omega
  · simp only [List.length_cons]
    omega

theorem ic_single {α : Type*} (s a : List α) : List.intercalate s [a] = a := by
  simp [List.intercalate]

theorem ic_cons2 {α : Type*} (s a b : List α) (l : List (List α)) :
    List.intercalate s (a :: b :: l) = a ++ s ++ List.intercalate s (b :: l) := by
  simp [List.intercalate, List.intersperse_cons₂, List.append_assoc]

theorem sos_ne_nil : ∀ (p : List Char), splitOnSlash p ≠ []
  | [] => by simp [splitOnSlash]
  | c :: rest => by
    by_cases hc : c = '/'
    · simp [splitOnSlash, hc]
    · simp only [splitOnSlash, if_neg hc]
      cases h : splitOnSlash rest <;> simp

theorem sos_cons_slash (r : List Char) :
    splitOnSlash ('/' :: r) = [] :: splitOnSlash r := by
  simp [splitOnSlash]

theorem sos_cons_ne {x : Char} (hx : x ≠ '/') (r l : List Char) (ls : List (List Char))
    (h : splitOnSlash r = l :: ls) : splitOnSlash (x :: r) = (x :: l) :: ls := by
  simp only [splitOnSlash, if_neg hx, h]

/-- Joining the slash-components with slashes recovers the path. -/
theorem sos_flat : ∀ (p : List Char), List.intercalate ['/'] (splitOnSlash p) = p
  | [] => by simp [splitOnSlash, ic_single]
  | c :: rest => by
    have hrest := sos_flat rest
    by_cases hc : c = '/'
    · subst hc
      obtain ⟨l, ls, hS⟩ : ∃ l ls, splitOnSlash rest = l :: ls := by
        cases h : splitOnSlash rest with
        | nil => exact absurd h (sos_ne_nil rest)
        | cons l ls => exact ⟨l, ls, rfl⟩
      rw [hS] at hrest
      rw [sos_cons_slash, hS, ic_cons2, hrest]
      simp
    · simp only [splitOnSlash, if_neg hc]
      cases hS : splitOnSlash rest with
      | nil => exact absurd hS (sos_ne_nil rest)
      | cons l ls =>
        rw [hS] at hrest
        cases ls with
        | nil =>
          rw [ic_single] at hrest
          simp [ic_single, hrest]
        | cons l2 ls2 =>
          rw [ic_cons2] at hrest
          rw [ic_cons2]
          simp only [← hrest, List.cons_append]

theorem sos_slashfree : ∀ (p : List Char), ∀ comp ∈ splitOnSlash p, ('/' : Char) ∉ comp
  | [] => by intro comp hc; simp [splitOnSlash] at hc; simp [hc]
  | c :: rest => by
    intro comp hc
    by_cases hcs : c = '/'
    · simp only [splitOnSlash, if_pos hcs] at hc
      rcases List.mem_cons.mp hc with rfl | h
      · simp
      · exact sos_slashfree rest comp h
    · simp only [splitOnSlash, if_neg hcs] at hc
      cases hS : splitOnSlash rest with
      | nil => exact absurd hS (sos_ne_nil rest)
      | cons l ls =>
        rw [hS] at hc
        rcases List.mem_cons.mp hc with rfl | h
        · intro hmem
          rcases List.mem_cons.mp hmem with he | h2
          · exact hcs he.symm
          · exact sos_slashfree rest l (hS ▸ List.mem_cons_self l ls) h2
        · exact sos_slashfree rest comp (hS ▸ List.mem_cons_of_mem l h)

theorem sos_mem_sub : ∀ (p : List Char), ∀ comp ∈ splitOnSlash p, ∀ x ∈ comp, x ∈ p
  | [] => by intro comp hc; simp [splitOnSlash] at hc; simp [hc]
  | c :: rest => by
    intro comp hc x hx
    by_cases hcs : c = '/'
    · simp only [splitOnSlash, if_pos hcs] at hc
      rcases List.mem_cons.mp hc with rfl | h
      · simp at hx
      · exact List.mem_cons_of_mem c (sos_mem_sub rest comp h x hx)
    · simp only [splitOnSlash, if_neg hcs] at hc
      cases hS : splitOnSlash rest with
      | nil => exact absurd hS (sos_ne_nil rest)
      | cons l ls =>
        rw [hS] at hc
        rcases List.mem_cons.mp hc with rfl | h
        · rcases List.mem_cons.mp hx with rfl | h2
          · exact List.mem_cons_self x rest
          · exact List.mem_cons_of_mem c
              (sos_mem_sub rest l (hS ▸ List.mem_cons_self l ls) x h2)
        · exact List.mem_cons_of_mem c
            (sos_mem_sub rest comp (hS ▸ List.mem_cons_of_mem l h) x hx)

/-- Splitting after a slash-free block followed by a slash. -/
theorem sos_pre : ∀ (a z : List Char), ('/' : Char) ∉ a →
    splitOnSlash (a ++ '/' :: z) = a :: splitOnSlash z
  | [], z, _ => by simp [splitOnSlash]
  | x :: a', z, h => by
    have hx : x ≠ '/' := fun he => h (he ▸ List.mem_cons_self x a')
    have ih := sos_pre a' z (fun hm => h (List.mem_cons_of_mem x hm))
    obtain ⟨l, ls, hS⟩ : ∃ l ls, splitOnSlash (a' ++ '/' :: z) = l :: ls := by
      cases h2 : splitOnSlash (a' ++ '/' :: z) with
      | nil => exact absurd h2 (sos_ne_nil _)
      | cons l ls => exact ⟨l, ls, rfl⟩
    rw [hS] at ih
    obtain ⟨rfl, rfl⟩ : l = a' ∧ ls = splitOnSlash z := by
      have h1 := congrArg List.head? ih
      have h2 := congrArg List.tail ih
      simp at h1 h2
      exact ⟨h1, h2⟩
    rw [List.cons_append, sos_cons_ne hx _ _ _ hS]

theorem sos_single : ∀ (a : List Char), ('/' : Char) ∉ a → splitOnSlash a = [a]
  | [], _ => rfl
  | x :: a', h => by
    have hx : x ≠ '/' := fun he => h (he ▸ List.mem_cons_self x a')
    have ih := sos_single a' (fun hm => h (List.mem_cons_of_mem x hm))
    simp only [splitOnSlash, if_neg hx, ih]

/-- Splitting an intercalation of slash-free components recovers them. -/
theorem sos_ic : ∀ (N : List (List Char)), N ≠ [] →
    (∀ comp ∈ N, ('/' : Char) ∉ comp) →
    splitOnSlash (List.intercalate ['/'] N) = N
  | [], h, _ => absurd rfl h
  | [a], _, h => by
    rw [ic_single]
    exact sos_single a (h a (List.mem_cons_self a []))
  | a :: b :: l, _, h => by
    rw [ic_cons2, List.append_assoc, List.singleton_append,
      sos_pre a _ (h a (List.mem_cons_self a (b :: l))),
      sos_ic (b :: l) (by simp) (fun comp hc => h comp (List.mem_cons_of_mem a hc))]

theorem sos_repl : ∀ (k : Nat) (r : List Char),
    splitOnSlash (List.replicate k '/' ++ r) = List.replicate k [] ++ splitOnSlash r
  | 0, r => by simp
  | k + 1, r => by
    rw [List.replicate_succ, List.cons_append]
    have hstep : splitOnSlash ('/' :: (List.replicate k '/' ++ r)) =
        [] :: splitOnSlash (List.replicate k '/' ++ r) := by
      simp [splitOnSlash]
    rw [hstep, sos_repl k r, List.replicate_succ, List.cons_append]
theorem modifyLastComp_concat (f : List Char → List Char) :
    ∀ (C₀ : List (List Char)) (lc : List Char),
      modifyLastComp f (C₀ ++ [lc]) = C₀ ++ [f lc]
  | [], lc => rfl
  | d :: C₀', lc => by
    cases C₀' with
    | nil => rfl
    | cons e es =>
      show d :: modifyLastComp f ((e :: es) ++ [lc]) = _
      rw [modifyLastComp_concat f (e :: es) lc]
      rfl

/-- Appending one non-slash character extends the last component. -/
theorem sos_concat : ∀ (X : List Char) {c : Char}, c ≠ '/' →
    splitOnSlash (X ++ [c]) = modifyLastComp (fun l => l ++ [c]) (splitOnSlash X)
  | [], c, hc => by simp [splitOnSlash, if_neg hc, modifyLastComp]
  | x :: X', c, hc => by
    by_cases hx : x = '/'
    · subst hx
      rw [List.cons_append, sos_cons_slash, sos_cons_slash, sos_concat X' hc]
      cases hS : splitOnSlash X' with
      | nil => exact absurd hS (sos_ne_nil X')
      | cons l ls => rfl
    · rw [List.cons_append]
      cases hS : splitOnSlash X' with
      | nil => exact absurd hS (sos_ne_nil X')
      | cons l ls =>
        have hX : splitOnSlash (X' ++ [c]) =
            modifyLastComp (fun t => t ++ [c]) (l :: ls) := by
          rw [sos_concat X' hc, hS]
        cases ls with
        | nil =>
          have hX' : splitOnSlash (X' ++ [c]) = (l ++ [c]) :: [] := hX
          rw [sos_cons_ne hx _ _ _ hX', sos_cons_ne hx _ _ _ hS]
          rfl
        | cons l2 ls2 =>
          have hX' : splitOnSlash (X' ++ [c]) =
              l :: modifyLastComp (fun t => t ++ [c]) (l2 :: ls2) := hX
          rw [sos_cons_ne hx _ _ _ hX', sos_cons_ne hx _ _ _ hS]
          rfl

theorem normStep_mem {k : Nat} {acc : List (List Char)} {a c : List Char}
    (hc : c ∈ normStep k acc a) : c ∈ acc ∨ c = a := by
  unfold normStep at hc
  split_ifs at hc
  · exact Or.inl hc
  · rcases List.mem_append.mp hc with h | h
    · exact Or.inl h
    · exact Or.inr (List.mem_singleton.mp h)
  · exact Or.inl ((List.dropLast_sublist acc).subset hc)

theorem normComps_acc_mem (k : Nat) : ∀ (comps acc : List (List Char)),
    ∀ c ∈ List.foldl (normStep k) acc comps, c ∈ acc ∨ c ∈ comps
  | [], acc => by
    intro c hc
    rw [List.foldl_nil] at hc
    exact Or.inl hc
  | a :: comps', acc => by
    intro c hc
    rw [List.foldl_cons] at hc
    rcases normComps_acc_mem k comps' (normStep k acc a) c hc with h | h
    · rcases normStep_mem h with h2 | rfl
      · exact Or.inl h2
      · exact Or.inr (List.mem_cons_self c comps')
    · exact Or.inr (List.mem_cons_of_mem a h)

theorem normComps_mem {k : Nat} {comps : List (List Char)} :
    ∀ c ∈ normComps k comps, c ∈ comps := by
  intro c hc
  rcases normComps_acc_mem k comps [] c hc with h | h
  · simp at h
  · exact h

theorem normStep_ne {k : Nat} {acc : List (List Char)} {a c : List Char}
    (hc : c ∈ normStep k acc a) (hacc : ∀ d ∈ acc, d ≠ [] ∧ d ≠ ['.']) :
    c ≠ [] ∧ c ≠ ['.'] := by
  unfold normStep at hc
  split_ifs at hc with h1 _
  · exact hacc c hc
  · rcases List.mem_append.mp hc with h | h
    · exact hacc c h
    · have he : c = a := List.mem_singleton.mp h
      subst he
      push_neg at h1
      exact h1
  · exact hacc c ((List.dropLast_sublist acc).subset hc)

theorem normComps_acc_ne (k : Nat) : ∀ (comps acc : List (List Char)),
    (∀ d ∈ acc, d ≠ [] ∧ d ≠ ['.']) →
    ∀ c ∈ List.foldl (normStep k) acc comps, c ≠ [] ∧ c ≠ ['.']
  | [], acc, hacc => by
    intro c hc
    rw [List.foldl_nil] at hc
    exact hacc c hc
  | a :: comps', acc, hacc => by
    intro c hc
    rw [List.foldl_cons] at hc
    exact normComps_acc_ne k comps' (normStep k acc a)
      (fun d hd => normStep_ne hd hacc) c hc

theorem normComps_ne {k : Nat} {comps : List (List Char)} :
    ∀ c ∈ normComps k comps, c ≠ [] ∧ c ≠ ['.'] :=
  normComps_acc_ne k comps [] (by simp)

theorem normComps_acc_sub (k : Nat) : ∀ (comps acc pre : List (List Char)),
    acc.Sublist pre → (List.foldl (normStep k) acc comps).Sublist (pre ++ comps)
  | [], acc, pre, h => by simpa using h
  | a :: comps', acc, pre, h => by
    rw [List.foldl_cons]
    have hstep : (normStep k acc a).Sublist (pre ++ [a]) := by
      unfold normStep
      split_ifs
      · exact h.trans (List.sublist_append_left pre [a])
      · exact h.append (List.Sublist.refl [a])
      · exact ((List.dropLast_sublist acc).trans h).trans (List.sublist_append_left pre [a])
    have hrec := normComps_acc_sub k comps' (normStep k acc a) (pre ++ [a]) hstep
    simpa [List.append_assoc] using hrec

/-- The surviving components are a subsequence of the original ones. -/
theorem normComps_sub (k : Nat) (comps : List (List Char)) :
    (normComps k comps).Sublist comps := by
  simpa using normComps_acc_sub k comps [] [] (List.Sublist.refl [])

/-- Surviving `..` components form a prefix block, and none survive on an
absolute path. -/
theorem normStep_layout {k : Nat} {acc : List (List Char)} (a : List Char)
    (h : ∃ m rest, acc = List.replicate m ['.', '.'] ++ rest ∧
      ['.', '.'] ∉ rest ∧ (1 ≤ k → m = 0)) :
    ∃ m rest, normStep k acc a = List.replicate m ['.', '.'] ++ rest ∧
      ['.', '.'] ∉ rest ∧ (1 ≤ k → m = 0) := by
  obtain ⟨m, rest, hacc, hnr, hk⟩ := h
  unfold normStep
  split_ifs with h1 h2
  · exact ⟨m, rest, hacc, hnr, hk⟩
  · by_cases ha : a = ['.', '.']
    · subst ha
      rcases h2.resolve_left (by simp) with ⟨hk0, hacc0⟩ | hlast
      · refine ⟨1, [], ?_, by simp, fun h1k => by omega⟩
        rw [hacc0]
        simp
      · have hrest0 : rest = [] := by
          by_contra hne
          have hget : acc.getLast? = rest.getLast? := by
            rw [hacc]
            exact List.getLast?_append_of_ne_nil _ hne
          rw [hlast] at hget
          exact hnr (getLastq_mem hget.symm)
        subst hrest0
        rw [List.append_nil] at hacc
        refine ⟨m + 1, [], ?_, by simp, fun h1k => ?_⟩
        · rw [hacc, List.replicate_succ']
          simp
        · exfalso
          have hm0 := hk h1k
          rw [hm0] at hacc
          simp only [List.replicate_zero] at hacc
          rw [hacc] at hlast
          simp at hlast
    · refine ⟨m, rest ++ [a], ?_, ?_, hk⟩
      · rw [hacc, List.append_assoc]
      · intro hmem
        rcases List.mem_append.mp hmem with h | h
        · exact hnr h
        · exact ha (List.mem_singleton.mp h).symm
  · by_cases hre : rest = []
    · subst hre
      rw [List.append_nil] at hacc
      cases m with
      | zero =>
        refine ⟨0, [], ?_, by simp, fun _ => rfl⟩
        rw [hacc]
        simp
      | succ m' =>
        refine ⟨m', [], ?_, by simp, fun h1k => absurd (hk h1k) (by omega)⟩
        rw [hacc, List.replicate_succ', List.dropLast_concat]
        simp
    · refine ⟨m, rest.dropLast,
        ?_, fun hmem => hnr ((List.dropLast_sublist rest).subset hmem), hk⟩
      rw [hacc, List.dropLast_append_of_ne_nil _ hre]

theorem normComps_acc_layout (k : Nat) : ∀ (comps acc : List (List Char)),
    (∃ m rest, acc = List.replicate m ['.', '.'] ++ rest ∧
      ['.', '.'] ∉ rest ∧ (1 ≤ k → m = 0)) →
    ∃ m rest, List.foldl (normStep k) acc comps = List.replicate m ['.', '.'] ++ rest ∧
      ['.', '.'] ∉ rest ∧ (1 ≤ k → m = 0)
  | [], acc, h => by simpa using h
  | a :: comps', acc, h => by
    rw [List.foldl_cons]
    exact normComps_acc_layout k comps' (normStep k acc a) (normStep_layout a h)

theorem normComps_layout (k : Nat) (comps : List (List Char)) :
    ∃ m rest, normComps k comps = List.replicate m ['.', '.'] ++ rest ∧
      ['.', '.'] ∉ rest ∧ (1 ≤ k → m = 0) :=
  normComps_acc_layout k comps [] ⟨0, [], by simp, by simp, fun _ => rfl⟩

theorem refold_repl : ∀ (j i : Nat),
    List.foldl (normStep 0) (List.replicate i ['.', '.']) (List.replicate j ['.', '.']) =
      List.replicate (i + j) ['.', '.']
  | 0, i => by simp
  | j + 1, i => by
    rw [List.replicate_succ, List.foldl_cons]
    have hstep : normStep 0 (List.replicate i (['.', '.'] : List Char)) ['.', '.'] =
        List.replicate (i + 1) ['.', '.'] := by
      unfold normStep
      rw [if_neg (by decide), if_pos ?cond, List.replicate_succ']
      case cond =>
        cases i with
        | zero => exact Or.inr (Or.inl ⟨rfl, by simp⟩)
        | succ i' =>
          refine Or.inr (Or.inr ?_)
          rw [List.replicate_succ', List.getLast?_concat]
    rw [hstep, refold_repl j (i + 1)]
    congr 1
    omega

theorem refold_rest (k : Nat) : ∀ (rest acc : List (List Char)),
    (∀ c ∈ rest, c ≠ [] ∧ c ≠ ['.'] ∧ c ≠ ['.', '.']) →
    List.foldl (normStep k) acc rest = acc ++ rest
  | [], acc, _ => by simp
  | a :: rest', acc, h => by
    have ha := h a (List.mem_cons_self a rest')
    rw [List.foldl_cons]
    have hstep : normStep k acc a = acc ++ [a] := by
      unfold normStep
      rw [if_neg (by simp [ha.1, ha.2.1]), if_pos (Or.inl ha.2.2)]
    rw [hstep, refold_rest k rest' (acc ++ [a])
      (fun c hc => h c (List.mem_cons_of_mem a hc)), List.append_assoc,
      List.singleton_append]

/-- Running the component loop over its own output changes nothing. -/
theorem normComps_refold (k : Nat) (N : List (List Char))
    (hne : ∀ c ∈ N, c ≠ [] ∧ c ≠ ['.'])
    (hlay : ∃ m rest, N = List.replicate m ['.', '.'] ++ rest ∧
      ['.', '.'] ∉ rest ∧ (1 ≤ k → m = 0)) :
    normComps k N = N := by
  obtain ⟨m, rest, rfl, hnr, hk⟩ := hlay
  have hrest : ∀ c ∈ rest, c ≠ [] ∧ c ≠ ['.'] ∧ c ≠ ['.', '.'] := by
    intro c hc
    have h := hne c (List.mem_append_right _ hc)
    exact ⟨h.1, h.2, fun he => hnr (he ▸ hc)⟩
  unfold normComps
  rw [List.foldl_append]
  rcases Nat.eq_zero_or_pos k with hk0 | hkpos
  · subst hk0
    have h1 : List.foldl (normStep 0) []
        (List.replicate m (['.', '.'] : List Char)) = List.replicate m ['.', '.'] := by
      simpa using refold_repl m 0
    rw [h1, refold_rest 0 rest _ hrest]
  · have hm0 := hk hkpos
    subst hm0
    rw [List.replicate_zero, List.foldl_nil, List.nil_append,
      refold_rest k rest [] hrest, List.nil_append]

theorem ic_head (c₀ : Char) (t₀ : List Char) (N' : List (List Char)) :
    ∃ X, List.intercalate ['/'] ((c₀ :: t₀) :: N') = c₀ :: X := by
  cases N' with
  | nil => exact ⟨t₀, by rw [ic_single]⟩
  | cons b N'' =>
    refine ⟨t₀ ++ ['/'] ++ List.intercalate ['/'] (b :: N''), ?_⟩
    rw [ic_cons2]
    simp [List.cons_append, List.append_assoc]

theorem ic_ne {s N₀ : List Char} (h : N₀ ≠ []) (N' : List (List Char)) :
    List.intercalate s (N₀ :: N') ≠ [] := by
  cases N' with
  | nil => rw [ic_single]; exact h
  | cons b N'' =>
    rw [ic_cons2]
    intro hcontra
    exact h (List.append_eq_nil.mp (List.append_eq_nil.mp hcontra).1).1

theorem isc_le_two (p : List Char) : initialSlashCount p ≤ 2 := by
  unfold initialSlashCount
  split_ifs <;> omega

theorem normpath_eq_of_ne (p : List Char) (hp : p ≠ []) :
    normpath p = (if List.replicate (initialSlashCount p) '/' ++
        List.intercalate ['/'] (normComps (initialSlashCount p) (splitOnSlash p)) = []
      then ['.']
      else List.replicate (initialSlashCount p) '/' ++
        List.intercalate ['/'] (normComps (initialSlashCount p) (splitOnSlash p))) := by
  unfold normpath
  rw [if_neg hp]

theorem normpath_ne_nil (p : List Char) : normpath p ≠ [] := by
  by_cases hp : p = []
  · subst hp; decide
  · rw [normpath_eq_of_ne p hp]
    split_ifs with h
    · simp
    · exact h

/-- When some component survives, `normpath` is the preserved slashes
followed by the surviving components joined with slashes. -/
theorem normpath_repr (p : List Char) (hp : p ≠ [])
    (hN : normComps (initialSlashCount p) (splitOnSlash p) ≠ []) :
    normpath p = List.replicate (initialSlashCount p) '/' ++
      List.intercalate ['/'] (normComps (initialSlashCount p) (splitOnSlash p)) := by
  rw [normpath_eq_of_ne p hp]
  cases hNe : normComps (initialSlashCount p) (splitOnSlash p) with
  | nil => exact absurd hNe hN
  | cons N₀ N' =>
    have h0 : N₀ ≠ [] := (normComps_ne N₀ (hNe ▸ List.mem_cons_self N₀ N')).1
    rw [if_neg]
    intro hcontra
    exact ic_ne h0 N' (List.append_eq_nil.mp hcontra).2

theorem isc_build {k : Nat} (hk : k ≤ 2) {c₀ : Char} (hc : c₀ ≠ '/') (X : List Char) :
    initialSlashCount (List.replicate k '/' ++ (c₀ :: X)) = k := by
  interval_cases k
  · simp only [List.replicate_zero, List.nil_append]
    unfold initialSlashCount
    rw [if_neg]
    simp [hc]
  · simp only [List.replicate_one, List.singleton_append]
    unfold initialSlashCount
    rw [if_pos (by simp), if_neg]
    rintro ⟨hpre, -⟩
    rw [List.isPrefixOf_iff_prefix] at hpre
    obtain ⟨-, hpre2⟩ := List.cons_prefix_cons.mp hpre
    obtain ⟨he, -⟩ := List.cons_prefix_cons.mp hpre2
    exact hc he.symm
  · have h2 : List.replicate 2 '/' ++ (c₀ :: X) = '/' :: '/' :: c₀ :: X := by
      simp [List.replicate_succ]
    rw [h2]
    unfold initialSlashCount
    rw [if_pos (by simp), if_pos]
    constructor
    · rw [List.isPrefixOf_iff_prefix]
      exact List.cons_prefix_cons.mpr ⟨rfl,
        List.cons_prefix_cons.mpr ⟨rfl, List.nil_prefix⟩⟩
    · intro hpre
      rw [List.isPrefixOf_iff_prefix] at hpre
      obtain ⟨-, hpre2⟩ := List.cons_prefix_cons.mp hpre
      obtain ⟨-, hpre3⟩ := List.cons_prefix_cons.mp hpre2
      obtain ⟨he, -⟩ := List.cons_prefix_cons.mp hpre3
      exact hc he.symm

theorem normStep_nil_comp (k : Nat) (acc : List (List Char)) :
    normStep k acc [] = acc := by
  unfold normStep
  rw [if_pos (Or.inl rfl)]

theorem foldl_skip_empties (k : Nat) :
    ∀ (j : Nat) (acc : List (List Char)) (N : List (List Char)),
      List.foldl (normStep k) acc (List.replicate j [] ++ N) =
        List.foldl (normStep k) acc N
  | 0, acc, N => by simp
  | j + 1, acc, N => by
    rw [List.replicate_succ, List.cons_append, List.foldl_cons, normStep_nil_comp,
      foldl_skip_empties k j acc N]

/-- Lexical path normalization is idempotent. -/
theorem normpath_idem (p : List Char) : normpath (normpath p) = normpath p := by
  by_cases hp : p = []
  · subst hp; decide
  · have hk2 := isc_le_two p
    cases hNe : normComps (initialSlashCount p) (splitOnSlash p) with
    | nil =>
      have h0 := normpath_eq_of_ne p hp
      rw [hNe] at h0
      have hic : List.intercalate ['/'] ([] : List (List Char)) = [] := rfl
      rw [hic, List.append_nil] at h0
      have hcase : initialSlashCount p = 0 ∨ initialSlashCount p = 1 ∨
          initialSlashCount p = 2 := by omega
      rcases hcase with hk | hk | hk
      · rw [hk] at h0; simp at h0; rw [h0]; decide
      · rw [hk] at h0; simp at h0; rw [h0]; decide
      · rw [hk] at h0; simp at h0; rw [h0]; decide
    | cons N₀ N' =>
      have hmem0 : N₀ ∈ normComps (initialSlashCount p) (splitOnSlash p) := by
        rw [hNe]
        exact List.mem_cons_self N₀ N'
      have hne0 : N₀ ≠ [] := (normComps_ne N₀ hmem0).1
      have hsf : ('/' : Char) ∉ N₀ := sos_slashfree p N₀ (normComps_mem N₀ hmem0)
      obtain ⟨c₀, t₀, rfl⟩ : ∃ c₀ t₀, N₀ = c₀ :: t₀ := by
        cases N₀ with
        | nil => exact absurd rfl hne0
        | cons c t => exact ⟨c, t, rfl⟩
      have hc₀ : c₀ ≠ '/' := fun he => hsf (he ▸ List.mem_cons_self c₀ t₀)
      obtain ⟨X, hX⟩ := ic_head c₀ t₀ N'
      have hout : normpath p =
          List.replicate (initialSlashCount p) '/' ++ (c₀ :: X) := by
        rw [normpath_repr p hp (by rw [hNe]; simp), hNe, hX]
      have hisc : initialSlashCount (normpath p) = initialSlashCount p := by
        rw [hout]; exact isc_build hk2 hc₀ X
      have hNsf : ∀ comp ∈ (c₀ :: t₀) :: N', ('/' : Char) ∉ comp := by
        intro comp hcomp
        exact sos_slashfree p comp (normComps_mem comp (by rw [hNe]; exact hcomp))
      have hsos : splitOnSlash (normpath p) =
          List.replicate (initialSlashCount p) [] ++ ((c₀ :: t₀) :: N') := by
        rw [hout, ← hX, sos_repl, sos_ic ((c₀ :: t₀) :: N') (by simp) hNsf]
      have hNne : ∀ c ∈ (c₀ :: t₀) :: N', c ≠ [] ∧ c ≠ ['.'] := by
        intro c hc
        exact normComps_ne c (by rw [hNe]; exact hc)
      have hlay : ∃ m rest, (c₀ :: t₀) :: N' = List.replicate m ['.', '.'] ++ rest ∧
          ['.', '.'] ∉ rest ∧ (1 ≤ initialSlashCount p → m = 0) := by
        have hl := normComps_layout (initialSlashCount p) (splitOnSlash p)
        rw [hNe] at hl
        exact hl
      have hrefold : normComps (initialSlashCount p) ((c₀ :: t₀) :: N') =
          (c₀ :: t₀) :: N' := normComps_refold _ _ hNne hlay
      have hNC : normComps (initialSlashCount (normpath p)) (splitOnSlash (normpath p)) =
          (c₀ :: t₀) :: N' := by
        rw [hisc, hsos]
        unfold normComps
        rw [foldl_skip_empties]
        exact hrefold
      rw [normpath_repr (normpath p) (normpath_ne_nil p) (by rw [hNC]; simp),
        hNC, hisc, hX, ← hout]

theorem pre_slashfree {t b z : List Char} (h : t <+: b ++ '/' :: z)
    (ht : ('/' : Char) ∉ t) : t <+: b := by
  rcases pre_split b h with h2 | ⟨t₂, heq, hne, hb2⟩
  · exact h2
  · exfalso
    obtain ⟨d, t₂', rfl⟩ : ∃ d t₂', t₂ = d :: t₂' := by
      cases t₂ with
      | nil => exact absurd rfl hne
      | cons d t₂' => exact ⟨d, t₂', rfl⟩
    obtain ⟨rfl, -⟩ := List.cons_prefix_cons.mp hb2
    apply ht
    rw [heq]
    exact List.mem_append_right b (List.mem_cons_self _ t₂')

/-- An occurrence of `/tmp` in a join of slash-free components forces a
component after the first one to start with `tmp`. -/
theorem ic_occ_tail : ∀ (N : List (List Char)), (∀ c ∈ N, ('/' : Char) ∉ c) →
    SERVER_TARGET_DIR <:+: List.intercalate ['/'] N →
    ∃ c ∈ N.drop 1, ['t', 'm', 'p'] <+: c
  | [], _, hocc => by
    simp only [List.intercalate] at hocc
    exact absurd (List.eq_nil_of_infix_nil hocc) (by decide)
  | [a], hsf, hocc => by
    rw [ic_single] at hocc
    exact absurd (hocc.subset (by decide : ('/' : Char) ∈ SERVER_TARGET_DIR))
      (hsf a (List.mem_cons_self a []))
  | a :: b :: rest, hsf, hocc => by
    rw [ic_cons2, List.append_assoc, List.singleton_append] at hocc
    rcases inf_split a hocc with h1 | h1 | ⟨t₁, t₂, heq, hn1, hn2, hsuf, hpre⟩
    · exact absurd (h1.subset (by decide : ('/' : Char) ∈ SERVER_TARGET_DIR))
        (hsf a (List.mem_cons_self a _))
    · rcases List.infix_cons_iff.mp h1 with hp | hi
      · have htp : ['t', 'm', 'p'] <+: List.intercalate ['/'] (b :: rest) :=
          (List.cons_prefix_cons.mp hp).2
        have hb : ['t', 'm', 'p'] <+: b := by
          cases rest with
          | nil => rw [ic_single] at htp; exact htp
          | cons r rest' =>
            rw [ic_cons2, List.append_assoc, List.singleton_append] at htp
            exact pre_slashfree htp (by decide)
        exact ⟨b, by simp, hb⟩
      · obtain ⟨c, hc, hpc⟩ := ic_occ_tail (b :: rest)
          (fun c hc => hsf c (List.mem_cons_of_mem a hc)) hi
        refine ⟨c, ?_, hpc⟩
        simp only [List.drop_one, List.tail_cons] at hc ⊢
        exact List.mem_cons_of_mem b hc
    · exfalso
      have hpre1 : t₁ <+: SERVER_TARGET_DIR := ⟨t₂, heq.symm⟩
      obtain ⟨d, t₁', rfl⟩ : ∃ d t₁', t₁ = d :: t₁' := by
        cases t₁ with
        | nil => exact absurd rfl hn1
        | cons d t₁' => exact ⟨d, t₁', rfl⟩
      obtain ⟨rfl, -⟩ := List.cons_prefix_cons.mp hpre1
      exact hsf a (List.mem_cons_self a _) (hsuf.subset (List.mem_cons_self _ t₁'))

/-- Every component after the first one appears in the join preceded by a
slash. -/
theorem ic_tail_inf : ∀ (L : List (List Char)) (c : List Char), c ∈ L.tail →
    ('/' :: c) <:+: List.intercalate ['/'] L
  | [], c, hc => by simp at hc
  | a :: L', c, hc => by
    simp only [List.tail_cons] at hc
    cases L' with
    | nil => simp at hc
    | cons b L'' =>
      rw [ic_cons2, List.append_assoc, List.singleton_append]
      rcases List.mem_cons.mp hc with rfl | hc2
      · have hpre : c <+: List.intercalate ['/'] (c :: L'') := by
          cases L'' with
          | nil => rw [ic_single]
          | cons d L3 =>
            rw [ic_cons2, List.append_assoc]
            exact List.prefix_append c _
        have hp2 : ('/' :: c) <+: ('/' :: List.intercalate ['/'] (c :: L'')) :=
          List.cons_prefix_cons.mpr ⟨rfl, hpre⟩
        exact hp2.isInfix.trans (List.suffix_append a _).isInfix
      · have hrec := ic_tail_inf (b :: L'') c hc2
        have hsub : List.intercalate ['/'] (b :: L'') <:+
            a ++ '/' :: List.intercalate ['/'] (b :: L'') :=
          (List.suffix_cons '/' _).trans (List.suffix_append a _)
        exact hrec.trans hsub.isInfix

theorem sub_tail_mem {α : Type*} {N L : List α} (h : N.Sublist L) :
    ∀ c ∈ N.tail, c ∈ L.tail := by
  induction h with
  | slnil => intro c hc; simp at hc
  | cons a _ ih =>
    intro c hc
    exact List.mem_of_mem_tail (ih c hc)
  | cons₂ a h _ =>
    intro c hc
    simp only [List.tail_cons] at hc ⊢
    exact h.subset hc

/-- A component after the first one that starts with `tmp` witnesses an
occurrence of `/tmp` in the original path. -/
theorem tail_comp_occ (p : List Char) (c : List Char)
    (hc : c ∈ (splitOnSlash p).tail) (hpre : ['t', 'm', 'p'] <+: c) :
    SERVER_TARGET_DIR <:+: p := by
  have h1 := ic_tail_inf (splitOnSlash p) c hc
  rw [sos_flat] at h1
  have h2 : SERVER_TARGET_DIR <+: ('/' :: c) :=
    List.cons_prefix_cons.mpr ⟨rfl, hpre⟩
  exact h2.isInfix.trans h1

/-- Normalization never reintroduces an occurrence of `/tmp`. -/
theorem normpath_no_target {p : List Char} (h : ¬ SERVER_TARGET_DIR <:+: p) :
    ¬ SERVER_TARGET_DIR <:+: normpath p := by
  by_cases hp : p = []
  · subst hp; decide
  · cases hNe : normComps (initialSlashCount p) (splitOnSlash p) with
    | nil =>
      have h0 := normpath_eq_of_ne p hp
      rw [hNe] at h0
      have hic : List.intercalate ['/'] ([] : List (List Char)) = [] := rfl
      rw [hic, List.append_nil] at h0
      have hcase : initialSlashCount p = 0 ∨ initialSlashCount p = 1 ∨
          initialSlashCount p = 2 := by
        have := isc_le_two p
        omega
      rcases hcase with hk | hk | hk <;> rw [hk] at h0 <;> simp at h0 <;>
        rw [h0] <;> decide
    | cons N₀ N' =>
      have hmem0 : N₀ ∈ normComps (initialSlashCount p) (splitOnSlash p) := by
        rw [hNe]
        exact List.mem_cons_self N₀ N'
      have hne0 : N₀ ≠ [] := (normComps_ne N₀ hmem0).1
      have hsf0 : ('/' : Char) ∉ N₀ := sos_slashfree p N₀ (normComps_mem N₀ hmem0)
      have hNsf : ∀ comp ∈ N₀ :: N', ('/' : Char) ∉ comp := by
        intro comp hcomp
        exact sos_slashfree p comp (normComps_mem comp (by rw [hNe]; exact hcomp))
      have hout : normpath p = List.replicate (initialSlashCount p) '/' ++
          List.intercalate ['/'] (N₀ :: N') := by
        rw [normpath_repr p hp (by rw [hNe]; simp), hNe]
      intro hocc
      rw [hout] at hocc
      rcases inf_split (List.replicate (initialSlashCount p) '/') hocc with
        h1 | h1 | ⟨t₁, t₂, heq, hn1, hn2, hsuf, hpre⟩
      · have hmem := h1.subset (by decide : ('t' : Char) ∈ SERVER_TARGET_DIR)
        exact absurd (List.eq_of_mem_replicate hmem) (by decide)
      · obtain ⟨c, hc, hpc⟩ := ic_occ_tail (N₀ :: N') hNsf h1
        have hsub : (N₀ :: N').Sublist (splitOnSlash p) := by
          rw [← hNe]
          exact normComps_sub _ _
        have hct : c ∈ (splitOnSlash p).tail :=
          sub_tail_mem hsub c (by simpa using hc)
        exact h (tail_comp_occ p c hct hpc)
      · have hpre1 : t₁ <+: SERVER_TARGET_DIR := ⟨t₂, heq.symm⟩
        obtain ⟨d, t₁', rfl⟩ : ∃ d t₁', t₁ = d :: t₁' := by
          cases t₁ with
          | nil => exact absurd rfl hn1
          | cons d t₁' => exact ⟨d, t₁', rfl⟩
        obtain ⟨rfl, hrest⟩ := List.cons_prefix_cons.mp hpre1
        have ht₁' : t₁' = [] := by
          cases t₁' with
          | nil => rfl
          | cons e t₁'' =>
            obtain ⟨he, -⟩ := List.cons_prefix_cons.mp hrest
            have hslash : e = '/' :=
              List.eq_of_mem_replicate (hsuf.subset (by simp))
            rw [he] at hslash
            exact absurd hslash (by decide)
        subst ht₁'
        have ht₂ : t₂ = ['t', 'm', 'p'] := by
          have h3 := heq
          simp only [SERVER_TARGET_DIR, List.singleton_append] at h3
          exact (List.cons.injEq _ _ _ _ ▸ h3).2.symm
        subst ht₂
        have hb : ['t', 'm', 'p'] <+: N₀ := by
          cases N' with
          | nil => rw [ic_single] at hpre; exact hpre
          | cons b N'' =>
            rw [ic_cons2, List.append_assoc, List.singleton_append] at hpre
            exact pre_slashfree hpre (by decide)
        have hk1 : 1 ≤ initialSlashCount p := by
          by_contra hk0
          have hz : initialSlashCount p = 0 := by omega
          rw [hz] at hsuf
          simp [List.suffix_nil] at hsuf
        have hhead : p.head? = some '/' := by
          by_contra hh
          unfold initialSlashCount at hk1
          rw [if_neg hh] at hk1
          omega
        obtain ⟨r, rfl⟩ : ∃ r, p = '/' :: r := by
          cases p with
          | nil => exact absurd rfl hp
          | cons x r =>
            simp only [List.head?_cons, Option.some.injEq] at hhead
            exact ⟨r, by rw [hhead]⟩
        have hmem' : N₀ ∈ splitOnSlash ('/' :: r) := normComps_mem N₀ hmem0
        have hmemtail : N₀ ∈ (splitOnSlash ('/' :: r)).tail := by
          rw [sos_cons_slash] at hmem' ⊢
          simp only [List.tail_cons]
          rcases List.mem_cons.mp hmem' with he | h2
          · exact absurd he hne0
          · exact h2
        exact h (tail_comp_occ _ _ hmemtail hb)

/-- With a replacement string starting with a slash, replacing cannot make
a slash-free pattern appear as a prefix where it was not one before. -/
theorem strReplace_keeps_nonpre {cur : List Char} (h2 : cur.head? = some '/') :
    ∀ (s q : List Char), q ≠ [] → ('/' : Char) ∉ q → ¬ q <+: s →
      ¬ q <+: strReplace s SERVER_TARGET_DIR cur
  | [], q, hqne, _, _ => by
    intro hq
    rw [show strReplace [] SERVER_TARGET_DIR cur = [] from rfl] at hq
    exact hqne (List.prefix_nil.mp hq)
  | c :: cs, q, hqne, hqsf, hnp => by
    obtain ⟨cur', rfl⟩ : ∃ cur', cur = '/' :: cur' := by
      cases cur with
      | nil => simp at h2
      | cons x cur' =>
        simp only [List.head?_cons, Option.some.injEq] at h2
        exact ⟨cur', by rw [h2]⟩
    obtain ⟨qh, q', rfl⟩ : ∃ qh q', q = qh :: q' := by
      cases q with
      | nil => exact absurd rfl hqne
      | cons qh q' => exact ⟨qh, q', rfl⟩
    by_cases hcond : SERVER_TARGET_DIR ≠ [] ∧ SERVER_TARGET_DIR.isPrefixOf (c :: cs)
    · rw [strReplace_cons_match _ hcond.1 hcond.2]
      intro hq
      rw [List.cons_append] at hq
      obtain ⟨rfl, -⟩ := List.cons_prefix_cons.mp hq
      exact hqsf (List.mem_cons_self _ q')
    · rw [strReplace_cons_copy _ hcond]
      intro hq
      obtain ⟨rfl, hq'⟩ := List.cons_prefix_cons.mp hq
      have hq'cs : ¬ q' <+: cs := fun hcontra =>
        hnp (List.cons_prefix_cons.mpr ⟨rfl, hcontra⟩)
      cases q' with
      | nil => exact hq'cs List.nil_prefix
      | cons e q'' =>
        exact strReplace_keeps_nonpre h2 cs (e :: q'') (by simp)
          (fun hm => hqsf (List.mem_cons_of_mem _ hm)) hq'cs hq'

/-- The central replacement property: with a well-behaved replacement
string (an absolute path that does not contain `/tmp` and does not end in
`/`, `/t` or `/tm`), replacing `/tmp` leaves no occurrence of `/tmp`
behind, whatever the input line was. -/
theorem strReplace_no_target {cur : List Char} (h1 : ¬ SERVER_TARGET_DIR <:+: cur)
    (h2 : cur.head? = some '/') (h3 : ¬ ['/'] <:+ cur) (h4 : ¬ ['/', 't'] <:+ cur)
    (h5 : ¬ ['/', 't', 'm'] <:+ cur) :
    ∀ (s : List Char), ¬ SERVER_TARGET_DIR <:+: strReplace s SERVER_TARGET_DIR cur
  | [] => by
    intro hq
    rw [show strReplace [] SERVER_TARGET_DIR cur = [] from rfl] at hq
    exact absurd (List.eq_nil_of_infix_nil hq) (by decide)
  | c :: cs => by
    by_cases hcond : SERVER_TARGET_DIR ≠ [] ∧ SERVER_TARGET_DIR.isPrefixOf (c :: cs)
    · rw [strReplace_cons_match cur hcond.1 hcond.2]
      intro hocc
      rcases inf_split cur hocc with ha | ha | ⟨t₁, t₂, heq, hn1, hn2, hsuf, hpre⟩
      · exact h1 ha
      · exact strReplace_no_target h1 h2 h3 h4 h5
          ((c :: cs).drop SERVER_TARGET_DIR.length) ha
      · have hpre1 : t₁ <+: SERVER_TARGET_DIR := ⟨t₂, heq.symm⟩
        rcases t₁ with _ | ⟨a1, _ | ⟨a2, _ | ⟨a3, _ | ⟨a4, t₁'⟩⟩⟩⟩
        · exact hn1 rfl
        · obtain ⟨rfl, -⟩ := List.cons_prefix_cons.mp hpre1
          exact h3 hsuf
        · obtain ⟨rfl, hp2⟩ := List.cons_prefix_cons.mp hpre1
          obtain ⟨rfl, -⟩ := List.cons_prefix_cons.mp hp2
          exact h4 hsuf
        · obtain ⟨rfl, hp2⟩ := List.cons_prefix_cons.mp hpre1
          obtain ⟨rfl, hp3⟩ := List.cons_prefix_cons.mp hp2
          obtain ⟨rfl, -⟩ := List.cons_prefix_cons.mp hp3
          exact h5 hsuf
        · exfalso
          have hlen := congrArg List.length heq
          have hpos : 0 < t₂.length := List.length_pos.mpr hn2
          simp only [SERVER_TARGET_DIR, List.length_append, List.length_cons,
            List.length_nil] at hlen
          omega
    · rw [strReplace_cons_copy cur hcond]
      intro hocc
      rcases List.infix_cons_iff.mp hocc with hp | hi
      · obtain ⟨rfl, htl⟩ := List.cons_prefix_cons.mp hp
        have hnp : ¬ SERVER_TARGET_DIR <+: ('/' :: cs) := by
          intro hcontra
          exact hcond ⟨by decide, List.isPrefixOf_iff_prefix.mpr hcontra⟩
        have hntl : ¬ ['t', 'm', 'p'] <+: cs := fun hcontra =>
          hnp (List.cons_prefix_cons.mpr ⟨rfl, hcontra⟩)
        exact strReplace_keeps_nonpre h2 cs ['t', 'm', 'p'] (by decide) (by decide)
          hntl htl
      · exact strReplace_no_target h1 h2 h3 h4 h5 cs hi
termination_by s => s.length
decreasing_by
  · simp only [List.length_drop, List.length_cons]
    have : 0 < SERVER_TARGET_DIR.length := by decide
    omega
  · simp only [List.length_cons]
    omega

theorem ic_mem {s : List Char} {x : Char} : ∀ (N : List (List Char)),
    x ∈ List.intercalate s N → (∃ c ∈ N, x ∈ c) ∨ x ∈ s
  | [], hx => by simp only [List.intercalate] at hx; simp at hx
  | [a], hx => by
    rw [ic_single] at hx
    exact Or.inl ⟨a, List.mem_cons_self a [], hx⟩
  | a :: b :: l, hx => by
    rw [ic_cons2] at hx
    rcases List.mem_append.mp hx with h | h
    · rcases List.mem_append.mp h with h2 | h2
      · exact Or.inl ⟨a, List.mem_cons_self a _, h2⟩
      · exact Or.inr h2
    · rcases ic_mem (b :: l) h with ⟨c, hc, hxc⟩ | h2
      · exact Or.inl ⟨c, List.mem_cons_of_mem a hc, hxc⟩
      · exact Or.inr h2

theorem ic_concat {s : List Char} : ∀ (N : List (List Char)) (x : List Char), N ≠ [] →
    List.intercalate s (N ++ [x]) = List.intercalate s N ++ s ++ x
  | [], _, h => absurd rfl h
  | [a], x, _ => by
    rw [List.singleton_append, ic_cons2, ic_single, ic_single]
  | a :: b :: l, x, _ => by
    calc List.intercalate s ((a :: b :: l) ++ [x])
        = a ++ s ++ List.intercalate s ((b :: l) ++ [x]) := ic_cons2 s a b (l ++ [x])
      _ = a ++ s ++ (List.intercalate s (b :: l) ++ s ++ x) := by
          rw [ic_concat (b :: l) x (by simp)]
      _ = List.intercalate s (a :: b :: l) ++ s ++ x := by
          rw [ic_cons2]
          simp [List.append_assoc]

/-- Every character of a normalized path is a character of the input, a
slash, or a dot. -/
theorem np_mem {p : List Char} {x : Char} (hx : x ∈ normpath p) :
    x ∈ p ∨ x = '/' ∨ x = '.' := by
  by_cases hp : p = []
  · subst hp
    simp only [normpath, if_pos rfl] at hx
    simp at hx
    exact Or.inr (Or.inr hx)
  · rw [normpath_eq_of_ne p hp] at hx
    split_ifs at hx with h
    · simp at hx
      exact Or.inr (Or.inr hx)
    · rcases List.mem_append.mp hx with h1 | h1
      · exact Or.inr (Or.inl (List.eq_of_mem_replicate h1))
      · rcases ic_mem _ h1 with ⟨c, hc, hxc⟩ | h2
        · exact Or.inl (sos_mem_sub p c (normComps_mem c hc) x hxc)
        · exact Or.inr (Or.inl (List.mem_singleton.mp h2))

theorem eq_dropLast_concat {l : List Char} {c : Char} (h : l.getLast? = some c) :
    l = l.dropLast ++ [c] := by
  rcases List.eq_nil_or_concat l with rfl | ⟨l', a, rfl⟩
  · simp at h
  · rw [List.concat_eq_append] at h ⊢
    rw [List.getLast?_concat] at h
    obtain rfl : a = c := by simpa using h
    rw [List.dropLast_concat]

theorem isc_concat_nl (Z : List Char) :
    initialSlashCount (Z ++ ['\n']) = initialSlashCount Z := by
  unfold initialSlashCount
  have hpre : ∀ (pat : List Char), ('\n' : Char) ∉ pat →
      (pat.isPrefixOf (Z ++ ['\n'])) = (pat.isPrefixOf Z) := by
    intro pat hpat
    rw [Bool.eq_iff_iff, List.isPrefixOf_iff_prefix, List.isPrefixOf_iff_prefix]
    exact ⟨fun h => pre_drop_nl hpat Z h, fun h => h.trans (List.prefix_append Z ['\n'])⟩
  rw [hpre ['/', '/'] (by decide), hpre ['/', '/', '/'] (by decide)]
  cases Z with
  | nil => simp
  | cons z Z' => simp only [List.cons_append, List.head?_cons]

/-- Normalizing a line that ends in a newline (with no interior newline)
keeps exactly one newline, at the end. -/
theorem np_concat_nl (Z : List Char) (hZ : ('\n' : Char) ∉ Z) :
    ∃ Y, normpath (Z ++ ['\n']) = Y ++ ['\n'] ∧ ('\n' : Char) ∉ Y := by
  obtain ⟨C₀, lc, hC⟩ : ∃ C₀ lc, splitOnSlash Z = C₀ ++ [lc] := by
    rcases List.eq_nil_or_concat (splitOnSlash Z) with h | ⟨C₀, lc, h⟩
    · exact absurd h (sos_ne_nil Z)
    · exact ⟨C₀, lc, by rw [h, List.concat_eq_append]⟩
  have hlc_mem : lc ∈ splitOnSlash Z := by
    rw [hC]
    exact List.mem_append_right C₀ (List.mem_cons_self lc [])
  have hsplit : splitOnSlash (Z ++ ['\n']) = C₀ ++ [lc ++ ['\n']] := by
    rw [sos_concat Z (by decide), hC, modifyLastComp_concat]
  have hnot : ¬ (lc ++ ['\n'] = [] ∨ lc ++ ['\n'] = ['.']) := by
    rintro (h | h)
    · simp at h
    · have h2 := congrArg List.getLast? h
      rw [List.getLast?_concat] at h2
      simp at h2
  have hne2 : lc ++ ['\n'] ≠ ['.', '.'] := by
    intro h
    have h2 := congrArg List.getLast? h
    rw [List.getLast?_concat] at h2
    simp at h2
  have hNC : normComps (initialSlashCount (Z ++ ['\n'])) (splitOnSlash (Z ++ ['\n'])) =
      normComps (initialSlashCount (Z ++ ['\n'])) C₀ ++ [lc ++ ['\n']] := by
    rw [hsplit]
    unfold normComps
    rw [List.foldl_append, List.foldl_cons, List.foldl_nil]
    unfold normStep
    rw [if_neg hnot, if_pos (Or.inl hne2)]
  have hnp := normpath_repr (Z ++ ['\n']) (by simp) (by rw [hNC]; simp)
  rw [hNC] at hnp
  have hmemZ : ∀ x ∈ List.intercalate ['/']
      (normComps (initialSlashCount (Z ++ ['\n'])) C₀), x ∈ Z ∨ x = '/' := by
    intro x hx
    rcases ic_mem _ hx with ⟨c, hc, hxc⟩ | h2
    · have hcC : c ∈ C₀ := normComps_mem c hc
      have hcS : c ∈ splitOnSlash Z := by
        rw [hC]
        exact List.mem_append_left _ hcC
      exact Or.inl (sos_mem_sub Z c hcS x hxc)
    · exact Or.inr (List.mem_singleton.mp h2)
  cases hN' : normComps (initialSlashCount (Z ++ ['\n'])) C₀ with
  | nil =>
    rw [hN', List.nil_append, ic_single] at hnp
    refine ⟨List.replicate (initialSlashCount (Z ++ ['\n'])) '/' ++ lc, ?_, ?_⟩
    · rw [hnp, List.append_assoc]
    · intro hmem
      rcases List.mem_append.mp hmem with h | h
      · exact absurd (List.eq_of_mem_replicate h) (by decide)
      · exact hZ (sos_mem_sub Z lc hlc_mem '\n' h)
  | cons n1 N'' =>
    rw [hN'] at hnp hmemZ
    rw [ic_concat (n1 :: N'') (lc ++ ['\n']) (by simp)] at hnp
    refine ⟨List.replicate (initialSlashCount (Z ++ ['\n'])) '/' ++
      (List.intercalate ['/'] (n1 :: N'') ++ '/' :: lc), ?_, ?_⟩
    · rw [hnp]
      simp [List.append_assoc]
    · intro hmem
      rcases List.mem_append.mp hmem with h | h
      · exact absurd (List.eq_of_mem_replicate h) (by decide)
      · rcases List.mem_append.mp h with h2 | h2
        · rcases hmemZ '\n' h2 with h3 | h3
          · exact hZ h3
          · exact absurd h3 (by decide)
        · rcases List.mem_cons.mp h2 with h3 | h3
          · exact absurd h3 (by decide)
          · exact hZ (sos_mem_sub Z lc hlc_mem '\n' h3)

theorem slk_cons_nl (rest : List Char) :
    splitLinesKeep ('\n' :: rest) = ['\n'] :: splitLinesKeep rest := by
  simp [splitLinesKeep]

theorem slk_cons_ne {c : Char} (hc : c ≠ '\n') (rest l : List Char)
    (ls : List (List Char)) (h : splitLinesKeep rest = l :: ls) :
    splitLinesKeep (c :: rest) = (c :: l) :: ls := by
  simp only [splitLinesKeep, if_neg hc, h]

theorem slk_cons_ne_nil {c : Char} (hc : c ≠ '\n') (rest : List Char)
    (h : splitLinesKeep rest = []) : splitLinesKeep (c :: rest) = [[c]] := by
  simp only [splitLinesKeep, if_neg hc, h]

/-- Shape of the lines produced by `splitLinesKeep`: every line is
nonempty with newlines only possibly as its last character, and every line
except the last ends with a newline. -/
theorem slk_shape : ∀ (s : List Char),
    (∀ l ∈ splitLinesKeep s, l ≠ [] ∧ ('\n' : Char) ∉ l.dropLast) ∧
    (∀ l ∈ (splitLinesKeep s).dropLast, l.getLast? = some '\n')
  | [] => by simp [splitLinesKeep]
  | c :: rest => by
    obtain ⟨ih1, ih2⟩ := slk_shape rest
    by_cases hc : c = '\n'
    · subst hc
      rw [slk_cons_nl]
      constructor
      · intro l hl
        rcases List.mem_cons.mp hl with rfl | h
        · exact ⟨by simp, by simp⟩
        · exact ih1 l h
      · intro l hl
        cases hrest : splitLinesKeep rest with
        | nil =>
          rw [hrest] at hl
          simp at hl
        | cons r rs =>
          rw [hrest] at hl
          rw [List.dropLast_cons₂] at hl
          rcases List.mem_cons.mp hl with rfl | h
          · simp
          · exact ih2 l (by rw [hrest]; exact h)
    · cases hrest : splitLinesKeep rest with
      | nil =>
        rw [slk_cons_ne_nil hc rest hrest]
        constructor
        · intro l hl
          rcases List.mem_cons.mp hl with rfl | h
          · exact ⟨by simp, by simp⟩
          · simp at h
        · intro l hl
          simp at hl
      | cons r rs =>
        rw [slk_cons_ne hc rest r rs hrest]
        have hr_mem : r ∈ splitLinesKeep rest := by
          rw [hrest]
          exact List.mem_cons_self r rs
        have hrne : r ≠ [] := (ih1 r hr_mem).1
        obtain ⟨e, r', rfl⟩ : ∃ e r', r = e :: r' := by
          cases r with
          | nil => exact absurd rfl hrne
          | cons e r' => exact ⟨e, r', rfl⟩
        constructor
        · intro l hl
          rcases List.mem_cons.mp hl with rfl | h
          · refine ⟨by simp, ?_⟩
            rw [List.dropLast_cons₂]
            intro hmem
            rcases List.mem_cons.mp hmem with he | h2
            · exact hc he.symm
            · exact (ih1 _ hr_mem).2 h2
          · exact ih1 l (by rw [hrest]; exact List.mem_cons_of_mem _ h)
        · intro l hl
          cases rs with
          | nil => simp at hl
          | cons r2 rs2 =>
            rw [List.dropLast_cons₂] at hl
            rcases List.mem_cons.mp hl with rfl | h
            · rw [List.getLast?_cons_cons]
              exact ih2 (e :: r') (by
                rw [hrest, List.dropLast_cons₂]
                exact List.mem_cons_self _ _)
            · exact ih2 l (by
                rw [hrest, List.dropLast_cons₂]
                exact List.mem_cons_of_mem _ h)

theorem slk_single_nonl : ∀ (l : List Char), l ≠ [] → ('\n' : Char) ∉ l →
    splitLinesKeep l = [l]
  | [], h, _ => absurd rfl h
  | c :: rest, _, hn => by
    have hc : c ≠ '\n' := fun he => hn (he ▸ List.mem_cons_self c rest)
    cases rest with
    | nil => exact slk_cons_ne_nil hc [] rfl
    | cons d rest' =>
      have ih := slk_single_nonl (d :: rest') (by simp)
        (fun hm => hn (List.mem_cons_of_mem c hm))
      exact slk_cons_ne hc _ _ _ ih

theorem slk_nl_append : ∀ (X t : List Char), ('\n' : Char) ∉ X →
    splitLinesKeep ((X ++ ['\n']) ++ t) = (X ++ ['\n']) :: splitLinesKeep t
  | [], t, _ => by
    rw [List.nil_append, List.singleton_append, slk_cons_nl]
  | c :: X', t, hn => by
    have hc : c ≠ '\n' := fun he => hn (he ▸ List.mem_cons_self c X')
    have ih := slk_nl_append X' t (fun hm => hn (List.mem_cons_of_mem c hm))
    rw [List.cons_append, List.cons_append]
    exact slk_cons_ne hc _ _ _ ih

/-- Re-reading a written sequence of well-shaped lines yields those lines
back. -/
theorem slk_join : ∀ (ls : List (List Char)),
    (∀ l ∈ ls, l ≠ [] ∧ ('\n' : Char) ∉ l.dropLast) →
    (∀ l ∈ ls.dropLast, l.getLast? = some '\n') →
    splitLinesKeep ls.flatten = ls
  | [], _, _ => rfl
  | [l], h1, _ => by
    rw [List.flatten_cons, List.flatten_nil, List.append_nil]
    obtain ⟨hne, hnd⟩ := h1 l (List.mem_cons_self l [])
    rcases hlast : l.getLast? with - | c
    · rcases List.eq_nil_or_concat l with rfl | ⟨l', a, rfl⟩
      · exact absurd rfl hne
      · rw [List.concat_eq_append, List.getLast?_concat] at hlast
        simp at hlast
    · by_cases hcnl : c = '\n'
      · subst hcnl
        have hl := eq_dropLast_concat hlast
        have hx := slk_nl_append l.dropLast [] hnd
        rw [List.append_nil] at hx
        rw [hl, hx]
        rfl
      · have hnn : ('\n' : Char) ∉ l := by
          intro hmem
          rw [eq_dropLast_concat hlast] at hmem
          rcases List.mem_append.mp hmem with h | h
          · exact hnd h
          · exact hcnl (List.mem_singleton.mp h).symm
        exact slk_single_nonl l hne hnn
  | l :: l2 :: ls', h1, h2 => by
    rw [List.flatten_cons]
    have hl_last : l.getLast? = some '\n' := by
      apply h2 l
      rw [List.dropLast_cons₂]
      exact List.mem_cons_self _ _
    have hl := eq_dropLast_concat hl_last
    have hnd := (h1 l (List.mem_cons_self l _)).2
    rw [hl, slk_nl_append l.dropLast _ hnd, ← hl]
    rw [slk_join (l2 :: ls')
      (fun x hx => h1 x (List.mem_cons_of_mem l hx))
      (fun x hx => h2 x (by
        rw [List.dropLast_cons₂]
        exact List.mem_cons_of_mem l hx))]

theorem map_dropLast {α β : Type*} (f : α → β) : ∀ (l : List α),
    (l.map f).dropLast = l.dropLast.map f
  | [] => rfl
  | [_] => rfl
  | a :: b :: t => by
    rw [List.map_cons, List.map_cons, List.dropLast_cons₂, List.dropLast_cons₂,
      List.map_cons, ← List.map_cons f b t, map_dropLast f (b :: t)]

/-- Shape of a repaired line: rewriting and normalizing a well-shaped line
yields a nonempty line with newlines only at the end, and a trailing
newline is kept. -/
theorem sanitize_line_shape {cur : List Char} (hnl : ('\n' : Char) ∉ cur)
    (l : List Char) (hne : l ≠ []) (hnd : ('\n' : Char) ∉ l.dropLast) :
    (normpath (strReplace l SERVER_TARGET_DIR cur) ≠ [] ∧
      ('\n' : Char) ∉ (normpath (strReplace l SERVER_TARGET_DIR cur)).dropLast) ∧
    (l.getLast? = some '\n' →
      (normpath (strReplace l SERVER_TARGET_DIR cur)).getLast? = some '\n') := by
  by_cases hlast : l.getLast? = some '\n'
  · have hl := eq_dropLast_concat hlast
    have hsr : strReplace l SERVER_TARGET_DIR cur =
        strReplace l.dropLast SERVER_TARGET_DIR cur ++ ['\n'] := by
      conv_lhs => rw [hl]
      exact strReplace_append_nl (by decide) l.dropLast
    have hZ : ('\n' : Char) ∉ strReplace l.dropLast SERVER_TARGET_DIR cur := by
      intro hm
      rcases strReplace_mem l.dropLast '\n' hm with h | h
      · exact hnd h
      · exact hnl h
    obtain ⟨Y, hY, hYn⟩ := np_concat_nl _ hZ
    rw [hsr, hY]
    refine ⟨⟨by simp, ?_⟩, fun _ => by rw [List.getLast?_concat]⟩
    rw [List.dropLast_concat]
    exact hYn
  · have hnn : ('\n' : Char) ∉ l := by
      intro hm
      rcases List.eq_nil_or_concat l with rfl | ⟨l', a, hl'⟩
      · exact hne rfl
      · rw [List.concat_eq_append] at hl'
        subst hl'
        rw [List.dropLast_concat] at hnd
        rcases List.mem_append.mp hm with h | h
        · exact hnd h
        · apply hlast
          rw [List.getLast?_concat, (List.mem_singleton.mp h)]
    refine ⟨⟨normpath_ne_nil _, ?_⟩, fun h => absurd h hlast⟩
    intro hm
    have hm2 : ('\n' : Char) ∈ normpath (strReplace l SERVER_TARGET_DIR cur) :=
      (List.dropLast_sublist _).subset hm
    rcases np_mem hm2 with h | h | h
    · rcases strReplace_mem l '\n' h with h2 | h2
      · exact hnn h2
      · exact hnl h2
    · exact absurd h (by decide)
    · exact absurd h (by decide)

/-- The repaired file splits back into exactly the rewritten lines: the
rewrite is line-for-line. -/
theorem sanitize_lines {cur : List Char} (hnl : ('\n' : Char) ∉ cur)
    (content : List Char) :
    splitLinesKeep (sanitize_synctex content cur SERVER_TARGET_DIR) =
      (splitLinesKeep content).map
        (fun line => normpath (strReplace line SERVER_TARGET_DIR cur)) := by
  unfold sanitize_synctex
  apply slk_join
  · intro l' hl'
    obtain ⟨l, hl, rfl⟩ := List.mem_map.mp hl'
    obtain ⟨hne, hnd⟩ := (slk_shape content).1 l hl
    exact (sanitize_line_shape hnl l hne hnd).1
  · intro l' hl'
    rw [map_dropLast] at hl'
    obtain ⟨l, hl, rfl⟩ := List.mem_map.mp hl'
    obtain ⟨hne, hnd⟩ := (slk_shape content).1 l ((List.dropLast_sublist _).subset hl)
    exact (sanitize_line_shape hnl l hne hnd).2 ((slk_shape content).2 l hl)

/-- Normalizing any line that ends in a newline yields a line that ends in
a newline (no hypotheses on the rest of the line). -/
theorem np_concat_last (Z : List Char) :
    (normpath (Z ++ ['\n'])).getLast? = some '\n' := by
  obtain ⟨C₀, lc, hC⟩ : ∃ C₀ lc, splitOnSlash Z = C₀ ++ [lc] := by
    rcases List.eq_nil_or_concat (splitOnSlash Z) with h | ⟨C₀, lc, h⟩
    · exact absurd h (sos_ne_nil Z)
    · exact ⟨C₀, lc, by rw [h, List.concat_eq_append]⟩
  have hsplit : splitOnSlash (Z ++ ['\n']) = C₀ ++ [lc ++ ['\n']] := by
    rw [sos_concat Z (by decide), hC, modifyLastComp_concat]
  have hnot : ¬ (lc ++ ['\n'] = [] ∨ lc ++ ['\n'] = ['.']) := by
    rintro (h | h)
    · simp at h
    · have h2 := congrArg List.getLast? h
      rw [List.getLast?_concat] at h2
      simp at h2
  have hne2 : lc ++ ['\n'] ≠ ['.', '.'] := by
    intro h
    have h2 := congrArg List.getLast? h
    rw [List.getLast?_concat] at h2
    simp at h2
  have hNC : normComps (initialSlashCount (Z ++ ['\n'])) (splitOnSlash (Z ++ ['\n'])) =
      normComps (initialSlashCount (Z ++ ['\n'])) C₀ ++ [lc ++ ['\n']] := by
    rw [hsplit]
    unfold normComps
    rw [List.foldl_append, List.foldl_cons, List.foldl_nil]
    unfold normStep
    rw [if_neg hnot, if_pos (Or.inl hne2)]
  have hnp := normpath_repr (Z ++ ['\n']) (by simp) (by rw [hNC]; simp)
  rw [hNC] at hnp
  cases hN' : normComps (initialSlashCount (Z ++ ['\n'])) C₀ with
  | nil =>
    rw [hN', List.nil_append, ic_single] at hnp
    rw [hnp, ← List.append_assoc, List.getLast?_concat]
  | cons n1 N'' =>
    rw [hN', ic_concat (n1 :: N'') (lc ++ ['\n']) (by simp)] at hnp
    rw [hnp, List.getLast?_append_of_ne_nil _
        (show List.intercalate ['/'] (n1 :: N'') ++ ['/'] ++ (lc ++ ['\n']) ≠ [] by simp),
      List.getLast?_append_of_ne_nil _ (show lc ++ ['\n'] ≠ [] by simp),
      List.getLast?_concat]

/-- No occurrence of `/tmp` can span the flattened lines when each line is
free of it and all lines but the last end in a newline. -/
theorem flatten_no_target : ∀ (ls : List (List Char)),
    (∀ l ∈ ls, ¬ SERVER_TARGET_DIR <:+: l) →
    (∀ l ∈ ls.dropLast, l.getLast? = some '\n') →
    ¬ SERVER_TARGET_DIR <:+: ls.flatten
  | [], _, _ => by
    intro h
    exact absurd (List.eq_nil_of_infix_nil h) (by decide)
  | [l], h1, _ => by
    rw [List.flatten_cons, List.flatten_nil, List.append_nil]
    exact h1 l (List.mem_cons_self l [])
  | l :: l2 :: ls', h1, h2 => by
    rw [List.flatten_cons]
    intro hocc
    rcases inf_split l hocc with h | h | ⟨t₁, t₂, heq, hn1, hn2, hsuf, hpre⟩
    · exact h1 l (List.mem_cons_self _ _) h
    · exact flatten_no_target (l2 :: ls')
        (fun x hx => h1 x (List.mem_cons_of_mem l hx))
        (fun x hx => h2 x (by
          rw [List.dropLast_cons₂]
          exact List.mem_cons_of_mem l hx)) h
    · have hllast : l.getLast? = some '\n' := h2 l (by
        rw [List.dropLast_cons₂]
        exact List.mem_cons_self _ _)
      rw [suffix_getLastq hsuf hn1] at hllast
      have h3 : ('\n' : Char) ∈ t₁ := getLastq_mem hllast
      have hp : t₁ <+: SERVER_TARGET_DIR := ⟨t₂, heq.symm⟩
      exact absurd (hp.subset h3) (by decide)

/-- File-level form of the central property: after `sanitize_synctex`
rewrites a mapping file with a well-behaved local folder string, no
occurrence of `/tmp` remains anywhere in the file. -/
theorem sanitize_no_target {cur : List Char} (h1 : ¬ SERVER_TARGET_DIR <:+: cur)
    (h2 : cur.head? = some '/') (h3 : ¬ ['/'] <:+ cur) (h4 : ¬ ['/', 't'] <:+ cur)
    (h5 : ¬ ['/', 't', 'm'] <:+ cur) (content : List Char) :
    ¬ SERVER_TARGET_DIR <:+: sanitize_synctex content cur SERVER_TARGET_DIR := by
  unfold sanitize_synctex
  apply flatten_no_target
  · intro l' hl'
    obtain ⟨l, hl, rfl⟩ := List.mem_map.mp hl'
    exact normpath_no_target (strReplace_no_target h1 h2 h3 h4 h5 l)
  · intro l' hl'
    rw [map_dropLast] at hl'
    obtain ⟨l, hl, rfl⟩ := List.mem_map.mp hl'
    have hlast : l.getLast? = some '\n' := (slk_shape content).2 l hl
    have hl2 := eq_dropLast_concat hlast
    have hsr : strReplace l SERVER_TARGET_DIR cur =
        strReplace l.dropLast SERVER_TARGET_DIR cur ++ ['\n'] := by
      conv_lhs => rw [hl2]
      exact strReplace_append_nl (by decide) l.dropLast
    rw [hsr]
    exact np_concat_last _

/-- Replacing `/tmp` across a block with no occurrence followed by a
literal occurrence substitutes that occurrence and moves on.  (Uses the
fact that `/tmp` has no self-overlap: no nonempty proper suffix of it is
one of its prefixes.) -/
theorem strReplace_cross (new : List Char) : ∀ (p r : List Char),
    ¬ SERVER_TARGET_DIR <:+: p →
    strReplace (p ++ SERVER_TARGET_DIR ++ r) SERVER_TARGET_DIR new =
      p ++ new ++ strReplace r SERVER_TARGET_DIR new
  | [], r, _ => by
    rw [List.nil_append, List.nil_append]
    have hpre : SERVER_TARGET_DIR.isPrefixOf (SERVER_TARGET_DIR ++ r) :=
      List.isPrefixOf_iff_prefix.mpr (List.prefix_append _ _)
    rw [show SERVER_TARGET_DIR ++ r = '/' :: (['t', 'm', 'p'] ++ r) from rfl] at hpre ⊢
    rw [strReplace_cons_match new (by decide) hpre]
    rfl
  | c :: p', r, hnp => by
    have hcond : ¬ (SERVER_TARGET_DIR ≠ [] ∧
        SERVER_TARGET_DIR.isPrefixOf (c :: (p' ++ SERVER_TARGET_DIR ++ r))) := by
      rintro ⟨-, hpre⟩
      rw [List.isPrefixOf_iff_prefix, List.append_assoc] at hpre
      rcases pre_split (c :: p')
        (show SERVER_TARGET_DIR <+: (c :: p') ++ (SERVER_TARGET_DIR ++ r) from hpre)
        with h | ⟨t₂, heq, hne, hb⟩
      · exact hnp h.isInfix
      · have hlen : (c :: p').length < SERVER_TARGET_DIR.length := by
          have h2 := congrArg List.length heq
          have h3 := List.length_pos.mpr hne
          simp only [List.length_append] at h2
          omega
        have hpt : t₂ <+: SERVER_TARGET_DIR := by
          apply pre_of_append_le hb
          have h2 := congrArg List.length heq
          simp only [List.length_append] at h2
          omega
        have ht₂ : t₂ = SERVER_TARGET_DIR.drop (c :: p').length := by
          rw [heq]
          exact (List.drop_left _ _).symm
        have hfin : ∀ j < SERVER_TARGET_DIR.length, 0 < j →
            ¬ (SERVER_TARGET_DIR.drop j) <+: SERVER_TARGET_DIR := by decide
        exact hfin (c :: p').length hlen (by simp) (ht₂ ▸ hpt)
    have ih := strReplace_cross new p' r (fun h => hnp (List.infix_cons h))
    calc strReplace ((c :: p') ++ SERVER_TARGET_DIR ++ r) SERVER_TARGET_DIR new
        = c :: strReplace (p' ++ SERVER_TARGET_DIR ++ r) SERVER_TARGET_DIR new :=
          strReplace_cons_copy new hcond
      _ = c :: (p' ++ new ++ strReplace r SERVER_TARGET_DIR new) := by rw [ih]
      _ = (c :: p') ++ new ++ strReplace r SERVER_TARGET_DIR new := by
          simp [List.cons_append, List.append_assoc]

/-- Replacement is exactly split-on-`/tmp` / rejoin-with-the-new-string:
if a line decomposes into pieces free of `/tmp` joined by `/tmp`, the
replaced line is the same pieces joined by the replacement. -/
theorem strReplace_ic (new : List Char) : ∀ (pieces : List (List Char)),
    (∀ p ∈ pieces, ¬ SERVER_TARGET_DIR <:+: p) →
    strReplace (List.intercalate SERVER_TARGET_DIR pieces) SERVER_TARGET_DIR new =
      List.intercalate new pieces
  | [], _ => rfl
  | [p], h => by
    rw [ic_single, ic_single]
    exact strReplace_of_not_occ (h p (List.mem_cons_self p []))
  | p :: q :: rest, h => by
    rw [ic_cons2, ic_cons2]
    have ih := strReplace_ic new (q :: rest) (fun x hx => h x (List.mem_cons_of_mem p hx))
    calc strReplace (p ++ SERVER_TARGET_DIR ++
          List.intercalate SERVER_TARGET_DIR (q :: rest)) SERVER_TARGET_DIR new
        = p ++ new ++ strReplace (List.intercalate SERVER_TARGET_DIR (q :: rest))
            SERVER_TARGET_DIR new :=
          strReplace_cross new p _ (h p (List.mem_cons_self _ _))
      _ = p ++ new ++ List.intercalate new (q :: rest) := by rw [ih]

/-- C1: repair substitution.  For a line decomposing into pieces free of
the remote-root string joined by that string (its `N` occurrences),
`sanitize_synctex`'s replacement joins the same pieces with the
local-bottom-folder string — every occurrence is replaced — and, for any
file content whatsoever, no occurrence of the remote-root string remains
anywhere in the rewritten file.  The hypotheses on `cur` formalize the
claim's proviso that no other content coincidentally matches: the local
bottom folder is an absolute path that does not itself contain `/tmp` and
does not end in `/`, `/t` or `/tm` (endings that would let a replacement
splice a new `/tmp` together with following line text). -/
theorem c1_repair_substitution (cur : List Char)
    (h1 : ¬ SERVER_TARGET_DIR <:+: cur) (h2 : cur.head? = some '/')
    (h3 : ¬ ['/'] <:+ cur) (h4 : ¬ ['/', 't'] <:+ cur)
    (h5 : ¬ ['/', 't', 'm'] <:+ cur) :
    (∀ pieces : List (List Char), (∀ p ∈ pieces, ¬ SERVER_TARGET_DIR <:+: p) →
      strReplace (List.intercalate SERVER_TARGET_DIR pieces) SERVER_TARGET_DIR cur =
        List.intercalate cur pieces) ∧
    (∀ content : List Char,
      ¬ SERVER_TARGET_DIR <:+: sanitize_synctex content cur SERVER_TARGET_DIR) :=
  ⟨fun pieces hp => strReplace_ic cur pieces hp,
   fun content => sanitize_no_target h1 h2 h3 h4 h5 content⟩

/-- C1 witness: a concrete mapping file and local folder. -/
theorem c1_repair_substitution_witness :
    ¬ SERVER_TARGET_DIR <:+:
      sanitize_synctex ("/tmp/t/a.tex:1:2\nx\n".toList) ("/home/u/proj".toList)
        SERVER_TARGET_DIR :=
  (c1_repair_substitution ("/home/u/proj".toList) (by decide) (by decide) (by decide)
    (by decide) (by decide)).2 ("/tmp/t/a.tex:1:2\nx\n".toList)

/-- C5: repair line preservation.  The rewritten file has exactly as many
lines as the input, and line `i` of the output is the rewrite of line `i`
of the input (same order).  The hypothesis says the local folder string
contains no newline — otherwise the substitution itself could create
lines. -/
theorem c5_line_preservation (content cur : List Char) (hnl : ('\n' : Char) ∉ cur) :
    (splitLinesKeep (sanitize_synctex content cur SERVER_TARGET_DIR)).length =
      (splitLinesKeep content).length ∧
    ∀ i : Nat, (splitLinesKeep (sanitize_synctex content cur SERVER_TARGET_DIR))[i]? =
      ((splitLinesKeep content)[i]?).map
        (fun line => normpath (strReplace line SERVER_TARGET_DIR cur)) := by
  rw [sanitize_lines hnl content]
  exact ⟨List.length_map _ _, fun i => List.getElem?_map _ _ _⟩

/-- C5 witness. -/
theorem c5_line_preservation_witness :
    (splitLinesKeep (sanitize_synctex ("/tmp/t/a.tex:1:2\nx\n".toList)
      ("/home/u/proj".toList) SERVER_TARGET_DIR)).length =
      (splitLinesKeep ("/tmp/t/a.tex:1:2\nx\n".toList)).length :=
  (c5_line_preservation ("/tmp/t/a.tex:1:2\nx\n".toList) ("/home/u/proj".toList)
    (by decide)).1

/-- C6: repair normalization.  Every rewritten line is the purely lexical
`normpath` of the substituted line (no filesystem consulted — `normpath`
is a pure function of the string), and in particular a line `/a/./b//c`
normalizes to `/a/b/c`. -/
theorem c6_lexical_normalization (content cur : List Char)
    (hnl : ('\n' : Char) ∉ cur) :
    splitLinesKeep (sanitize_synctex content cur SERVER_TARGET_DIR) =
      (splitLinesKeep content).map
        (fun line => normpath (strReplace line SERVER_TARGET_DIR cur)) ∧
    normpath ("/a/./b//c".toList) = "/a/b/c".toList :=
  ⟨sanitize_lines hnl content, by decide⟩

/-- C6 witness. -/
theorem c6_lexical_normalization_witness :
    normpath ("/a/./b//c".toList) = "/a/b/c".toList :=
  (c6_lexical_normalization ("x\n".toList) ("/u".toList) (by decide)).2

/-- C10: lines containing no occurrence of the remote-root string are
still rewritten to their lexical normalization, so they can be altered
even though the substitution did not touch them. -/
theorem c10_untouched_lines_normalized (content cur line : List Char) (i : Nat)
    (hnl : ('\n' : Char) ∉ cur)
    (hline : (splitLinesKeep content)[i]? = some line)
    (hno : ¬ SERVER_TARGET_DIR <:+: line) :
    (splitLinesKeep (sanitize_synctex content cur SERVER_TARGET_DIR))[i]? =
      some (normpath line) := by
  rw [sanitize_lines hnl content, List.getElem?_map, hline]
  show some (normpath (strReplace line SERVER_TARGET_DIR cur)) = some (normpath line)
  rw [strReplace_of_not_occ hno]

/-- C10 witness: the line `/a//b` contains no `/tmp` yet is altered to
`/a/b` by normalization. -/
theorem c10_untouched_lines_normalized_witness :
    (splitLinesKeep (sanitize_synctex ("/a//b\nx\n".toList) ("/u".toList)
      SERVER_TARGET_DIR))[0]? = some (normpath ("/a//b\n".toList)) ∧
    normpath ("/a//b\n".toList) ≠ "/a//b\n".toList :=
  ⟨c10_untouched_lines_normalized ("/a//b\nx\n".toList) ("/u".toList)
    ("/a//b\n".toList) 0 (by decide) (by decide) (by decide), by decide⟩

/-- C4: repair idempotence.  Re-running `sanitize_synctex` with the same
parameters on an already-repaired file is a byte-identical no-op: no
occurrence of the remote root remains to replace, and lexical
normalization is idempotent. -/
theorem c4_repair_idempotent (content cur : List Char) (hnl : ('\n' : Char) ∉ cur)
    (h1 : ¬ SERVER_TARGET_DIR <:+: cur) (h2 : cur.head? = some '/')
    (h3 : ¬ ['/'] <:+ cur) (h4 : ¬ ['/', 't'] <:+ cur)
    (h5 : ¬ ['/', 't', 'm'] <:+ cur) :
    sanitize_synctex (sanitize_synctex content cur SERVER_TARGET_DIR) cur
      SERVER_TARGET_DIR = sanitize_synctex content cur SERVER_TARGET_DIR := by
  show ((splitLinesKeep (sanitize_synctex content cur SERVER_TARGET_DIR)).map
      (fun line => normpath (strReplace line SERVER_TARGET_DIR cur))).flatten = _
  rw [sanitize_lines hnl content, List.map_map]
  conv_rhs => rw [show sanitize_synctex content cur SERVER_TARGET_DIR =
    ((splitLinesKeep content).map
      (fun line => normpath (strReplace line SERVER_TARGET_DIR cur))).flatten from rfl]
  congr 1
  apply List.map_congr_left
  intro l _
  show normpath (strReplace (normpath (strReplace l SERVER_TARGET_DIR cur))
    SERVER_TARGET_DIR cur) = normpath (strReplace l SERVER_TARGET_DIR cur)
  rw [strReplace_of_not_occ
    (normpath_no_target (strReplace_no_target h1 h2 h3 h4 h5 l)), normpath_idem]

/-- C4 witness. -/
theorem c4_repair_idempotent_witness :
    sanitize_synctex (sanitize_synctex ("/tmp/t/a.tex:1:2\nx\n".toList)
        ("/home/u/proj".toList) SERVER_TARGET_DIR) ("/home/u/proj".toList)
      SERVER_TARGET_DIR =
    sanitize_synctex ("/tmp/t/a.tex:1:2\nx\n".toList) ("/home/u/proj".toList)
      SERVER_TARGET_DIR :=
  c4_repair_idempotent ("/tmp/t/a.tex:1:2\nx\n".toList) ("/home/u/proj".toList)
    (by decide) (by decide) (by decide) (by decide) (by decide) (by decide)

/-- Specification of the raw cut at the last slash: the two parts rebuild
the path, the tail is slash-free, and the head (when nonempty) ends with
the slash it was cut at. -/
theorem osSplitRaw_spec : ∀ (p : List Char),
    p = (osSplitRaw p).1 ++ (osSplitRaw p).2 ∧
    (('/' : Char) ∉ (osSplitRaw p).2) ∧
    ((osSplitRaw p).1 = [] ∨ (osSplitRaw p).1.getLast? = some '/')
  | [] => ⟨rfl, by simp [osSplitRaw], Or.inl rfl⟩
  | c :: p' => by
    obtain ⟨ih1, ih2, ih3⟩ := osSplitRaw_spec p'
    have hstep : osSplitRaw (c :: p') =
        if c = '/' ∨ (osSplitRaw p').1 ≠ []
        then (c :: (osSplitRaw p').1, (osSplitRaw p').2)
        else ((osSplitRaw p').1, c :: (osSplitRaw p').2) := rfl
    by_cases hc : c = '/' ∨ (osSplitRaw p').1 ≠ []
    · rw [hstep, if_pos hc]
      refine ⟨by rw [List.cons_append, ← ih1], ih2, Or.inr ?_⟩
      show (c :: (osSplitRaw p').1).getLast? = some '/'
      rcases ih3 with hA | hA
      · rw [hA]
        rcases hc with rfl | hne
        · simp
        · exact absurd hA hne
      · cases hAe : (osSplitRaw p').1 with
        | nil =>
          rw [hAe] at hA
          simp at hA
        | cons a A'' =>
          rw [List.getLast?_cons_cons]
          rw [hAe] at hA
          exact hA
    · rw [hstep, if_neg hc]
      push_neg at hc
      obtain ⟨hc1, hc2⟩ := hc
      refine ⟨?_, ?_, Or.inl hc2⟩
      · rw [hc2, List.nil_append]
        rw [hc2, List.nil_append] at ih1
        rw [← ih1]
      · intro hm
        rcases List.mem_cons.mp hm with he | hm2
        · exact hc1 he.symm
        · exact ih2 hm2

/-- The split/join round trip of CPython `posixpath` on an absolute path
with no doubled separator: rejoining the two halves rebuilds the path, and
the head is again absolute with no doubled separator. -/
theorem osSplit_join (p : List Char) (hhead : p.head? = some '/')
    (hnodbl : ¬ (['/', '/'] <:+: p)) :
    osJoin (osSplit p).1 (osSplit p).2 = p ∧
    (osSplit p).1.head? = some '/' ∧
    ¬ (['/', '/'] <:+: (osSplit p).1) ∧ (osSplit p).1 ≠ [] := by
  obtain ⟨hsplit, hsf, hlast⟩ := osSplitRaw_spec p
  have hAne : (osSplitRaw p).1 ≠ [] := by
    intro h0
    rw [h0, List.nil_append] at hsplit
    have hm : ('/' : Char) ∈ p := by
      cases p with
      | nil => simp at hhead
      | cons x p2 =>
        simp only [List.head?_cons, Option.some.injEq] at hhead
        rw [← hhead]
        exact List.mem_cons_self x p2
    rw [hsplit] at hm
    exact hsf hm
  have hAlast : (osSplitRaw p).1.getLast? = some '/' := hlast.resolve_left hAne
  have hAeq : (osSplitRaw p).1 = (osSplitRaw p).1.dropLast ++ ['/'] :=
    eq_dropLast_concat hAlast
  have hAhead : (osSplitRaw p).1.head? = some '/' := by
    rw [hsplit, List.head?_append_of_ne_nil _ hAne] at hhead
    exact hhead
  have hAinf : (osSplitRaw p).1 <:+: p :=
    ⟨[], (osSplitRaw p).2, by rw [List.nil_append]; exact hsplit.symm⟩
  have hAnodbl : ¬ (['/', '/'] <:+: (osSplitRaw p).1) :=
    fun hocc => hnodbl (hocc.trans hAinf)
  have hBhead : (osSplitRaw p).2.head? ≠ some '/' := by
    intro hb
    cases hBe : (osSplitRaw p).2 with
    | nil =>
      rw [hBe] at hb
      simp at hb
    | cons b B' =>
      rw [hBe] at hb
      simp only [List.head?_cons, Option.some.injEq] at hb
      apply hsf
      rw [hBe, hb]
      exact List.mem_cons_self '/' B'
  have hos2 : (osSplit p).2 = (osSplitRaw p).2 := rfl
  by_cases hA1 : (osSplitRaw p).1.dropLast = []
  · have hAval : (osSplitRaw p).1 = ['/'] := by
      rw [hAeq, hA1, List.nil_append]
    have hos1 : (osSplit p).1 = ['/'] := by
      show (if (osSplitRaw p).1 ≠ [] ∧ (osSplitRaw p).1.any (fun c => !(c == '/'))
        then rstripSlashes (osSplitRaw p).1 else (osSplitRaw p).1) = ['/']
      rw [hAval, if_neg (by decide)]
    refine ⟨?_, by rw [hos1]; rfl, by rw [hos1]; decide, by rw [hos1]; simp⟩
    rw [hos1, hos2]
    unfold osJoin
    rw [if_neg hBhead, if_pos (Or.inr (by decide))]
    rw [← hAval, ← hsplit]
  · have hA'lastmem : ∃ x, (osSplitRaw p).1.dropLast.getLast? = some x := by
      cases hAe : (osSplitRaw p).1.dropLast with
      | nil => exact absurd hAe hA1
      | cons a A'' =>
        rcases List.eq_nil_or_concat (a :: A'') with h | ⟨l', x, hx⟩
        · simp at h
        · exact ⟨x, by rw [hx, List.concat_eq_append, List.getLast?_concat]⟩
    obtain ⟨x, hx⟩ := hA'lastmem
    have hA'last : (osSplitRaw p).1.dropLast.getLast? ≠ some '/' := by
      intro hcl
      apply hAnodbl
      have hA'eq := eq_dropLast_concat hcl
      rw [hAeq, hA'eq, List.append_assoc]
      exact (List.suffix_append _ _).isInfix
    have hxne : x ≠ '/' := fun he => hA'last (he ▸ hx)
    have hstrip : rstripSlashes (osSplitRaw p).1 = (osSplitRaw p).1.dropLast := by
      unfold rstripSlashes
      conv_lhs => rw [hAeq]
      rw [List.reverse_append]
      show List.reverse (List.dropWhile (fun c => c == '/')
        ('/' :: (osSplitRaw p).1.dropLast.reverse)) = _
      rw [List.dropWhile_cons, if_pos (by simp)]
      cases hre : (osSplitRaw p).1.dropLast.reverse with
      | nil =>
        exact absurd (by rw [← List.reverse_reverse ((osSplitRaw p).1.dropLast), hre]; rfl) hA1
      | cons d R =>
        have hd : d ≠ '/' := by
          intro he
          apply hA'last
          rw [← List.head?_reverse, hre, he]
          rfl
        rw [List.dropWhile_cons, if_neg (by simp [hd]), ← hre, List.reverse_reverse]
    have hany : (osSplitRaw p).1.any (fun c => !(c == '/')) = true := by
      rw [List.any_eq_true]
      refine ⟨x, ?_, by simp [hxne]⟩
      have hxmem : x ∈ (osSplitRaw p).1.dropLast := getLastq_mem hx
      exact (List.dropLast_sublist _).subset hxmem
    have hos1 : (osSplit p).1 = (osSplitRaw p).1.dropLast := by
      show (if (osSplitRaw p).1 ≠ [] ∧ (osSplitRaw p).1.any (fun c => !(c == '/'))
        then rstripSlashes (osSplitRaw p).1 else (osSplitRaw p).1) = _
      rw [if_pos ⟨hAne, hany⟩, hstrip]
    have hA'head : (osSplitRaw p).1.dropLast.head? = some '/' := by
      rw [hAeq, List.head?_append_of_ne_nil _ hA1] at hAhead
      exact hAhead
    refine ⟨?_, by rw [hos1]; exact hA'head, ?_, by rw [hos1]; exact hA1⟩
    · rw [hos1, hos2]
      unfold osJoin
      rw [if_neg hBhead, if_neg (by
        push_neg
        exact ⟨hA1, hA'last⟩)]
      conv_rhs => rw [hsplit, hAeq]
      rw [List.append_assoc]
      rfl
    · rw [hos1]
      intro hocc
      apply hAnodbl
      apply hocc.trans
      exact (show (osSplitRaw p).1.dropLast <+: (osSplitRaw p).1 from
        ⟨['/'], hAeq.symm⟩).isInfix

/-- `splitext` always satisfies `root ++ ext = name`. -/
theorem splitext_concat (f : List Char) : (splitext f).1 ++ (splitext f).2 = f := by
  unfold splitext
  dsimp only
  split_ifs
  · simp
  · exact List.take_append_drop _ _
  · simp

/-- C2 (amended): for an absolute path with no doubled separator (and a
nonempty containing folder), the decomposition record satisfies the
invariants and rejoining rebuilds the path exactly. -/
theorem c2_amended (path : List Char) (hhead : path.head? = some '/')
    (hnodbl : ¬ (['/', '/'] <:+: path))
    (_hfold : (Filepath_info.ofPath path).folder ≠ []) :
    (Filepath_info.ofPath path).folder =
      osJoin (Filepath_info.ofPath path).bottom_folders
        (Filepath_info.ofPath path).top_folder ∧
    (Filepath_info.ofPath path).filename =
      (Filepath_info.ofPath path).stem ++ (Filepath_info.ofPath path).extension ∧
    osJoin (Filepath_info.ofPath path).folder
      (Filepath_info.ofPath path).filename = path := by
  obtain ⟨hj, hh, hn, -⟩ := osSplit_join path hhead hnodbl
  obtain ⟨hj2, -, -, -⟩ := osSplit_join (osSplit path).1 hh hn
  refine ⟨?_, ?_, ?_⟩
  · exact hj2.symm
  · exact (splitext_concat (osSplit path).2).symm
  · exact hj

/-- C2 witness: the scenario path from the spec. -/
theorem c2_amended_witness :
    (Filepath_info.ofPath "/home/u/proj/topic/notes.tex".toList).folder =
      osJoin (Filepath_info.ofPath "/home/u/proj/topic/notes.tex".toList).bottom_folders
        (Filepath_info.ofPath "/home/u/proj/topic/notes.tex".toList).top_folder ∧
    (Filepath_info.ofPath "/home/u/proj/topic/notes.tex".toList).filename =
      (Filepath_info.ofPath "/home/u/proj/topic/notes.tex".toList).stem ++
        (Filepath_info.ofPath "/home/u/proj/topic/notes.tex".toList).extension ∧
    osJoin (Filepath_info.ofPath "/home/u/proj/topic/notes.tex".toList).folder
        (Filepath_info.ofPath "/home/u/proj/topic/notes.tex".toList).filename =
      "/home/u/proj/topic/notes.tex".toList :=
  c2_amended ("/home/u/proj/topic/notes.tex".toList) (by decide) (by decide) (by decide)

theorem stem_no_slash (path : List Char) :
    ('/' : Char) ∉ (Filepath_info.ofPath path).stem := by
  have hsf : ('/' : Char) ∉ (osSplit path).2 := (osSplitRaw_spec path).2.1
  show ('/' : Char) ∉ (splitext (osSplit path).2).1
  unfold splitext
  dsimp only
  split_ifs
  · exact hsf
  · exact fun hm => hsf ((List.take_sublist _ _).subset hm)
  · exact hsf

/-- C9: the driver passes `sanitize_synctex` the bare relative name
`stem ++ ".synctex.gz"`; it never begins with a separator, and resolving
it against a working directory reaches the document's folder exactly when
the process is run from that folder (for folder strings in the usual form:
nonempty, no trailing separator). -/
theorem c9_synctex_arg_cwd_relative (path cwd : List Char)
    (hc1 : cwd ≠ []) (hc2 : cwd.getLast? ≠ some '/')
    (hf1 : (Filepath_info.ofPath path).folder ≠ [])
    (hf2 : (Filepath_info.ofPath path).folder.getLast? ≠ some '/') :
    (synctexGzArg (Filepath_info.ofPath path)).head? ≠ some '/' ∧
    (resolveAgainstCwd cwd (synctexGzArg (Filepath_info.ofPath path)) =
        resolveAgainstCwd (Filepath_info.ofPath path).folder
          (synctexGzArg (Filepath_info.ofPath path)) ↔
      cwd = (Filepath_info.ofPath path).folder) := by
  have harg : (synctexGzArg (Filepath_info.ofPath path)).head? ≠ some '/' := by
    unfold synctexGzArg
    cases hstem : (Filepath_info.ofPath path).stem with
    | nil => decide
    | cons c st =>
      rw [List.cons_append, List.head?_cons]
      intro hcs
      have hc := Option.some.inj hcs
      apply stem_no_slash path
      rw [hstem, hc]
      exact List.mem_cons_self '/' st
  refine ⟨harg, ?_⟩
  unfold resolveAgainstCwd osJoin
  rw [if_neg harg, if_neg harg,
    if_neg (by push_neg; exact ⟨hc1, hc2⟩), if_neg (by push_neg; exact ⟨hf1, hf2⟩)]
  constructor
  · exact fun h => List.append_cancel_right h
  · exact fun h => by rw [h]

/-- C9 witness: run from a different directory, the resolved name differs
from the one in the document's folder. -/
theorem c9_synctex_arg_cwd_relative_witness :
    (synctexGzArg (Filepath_info.ofPath "/home/u/proj/topic/notes.tex".toList)).head? ≠
      some '/' ∧
    (resolveAgainstCwd "/home/u/elsewhere".toList
        (synctexGzArg (Filepath_info.ofPath "/home/u/proj/topic/notes.tex".toList)) =
      resolveAgainstCwd (Filepath_info.ofPath "/home/u/proj/topic/notes.tex".toList).folder
        (synctexGzArg (Filepath_info.ofPath "/home/u/proj/topic/notes.tex".toList)) ↔
      "/home/u/elsewhere".toList =
        (Filepath_info.ofPath "/home/u/proj/topic/notes.tex".toList).folder) :=
  c9_synctex_arg_cwd_relative ("/home/u/proj/topic/notes.tex".toList)
    ("/home/u/elsewhere".toList) (by decide) (by decide) (by decide) (by decide)
